import Mathlib

/-!
A shallow embedding of the FTP client protocol engine of `ftp.go`.

The control connection is modelled by scripted `Wire` outcomes (one per
command round trip), the remote file system for the recursive-delete
algorithm by an explicit tree, and Go's string primitives (`strings.Index`,
`strings.LastIndex`, `strings.Split`, `strconv.Atoi`, slicing) by faithful
counterparts on lists of characters.  Server replies are ASCII, so Go's
byte indexing coincides with character indexing here.  A Go slice
expression whose bounds are out of range panics; that outcome is modelled
explicitly by `PRes.panic`.
-/

namespace FtpSpec

/-- Go strings, as lists of characters. -/
abbrev GoStr := List Char

/-- `strings.Index(s, sub)`: position of the first occurrence of `sub` in
`s`; `none` models Go's `-1`. -/
def goIndex (s sub : GoStr) : Option Nat :=
  (List.range (s.length + 1)).find? fun i => sub.isPrefixOf (s.drop i)

/-- `strings.LastIndex(s, sub)`: position of the last occurrence of `sub`
in `s`; `none` models Go's `-1`. -/
def goLastIndex (s sub : GoStr) : Option Nat :=
  (List.range (s.length + 1)).reverse.find? fun i => sub.isPrefixOf (s.drop i)

/-- Go slicing `s[lo:hi]`: defined when `0 ≤ lo ≤ hi ≤ len(s)`, a runtime
panic (`none`) otherwise. -/
def goSlice (s : GoStr) (lo hi : Nat) : Option GoStr :=
  if lo ≤ hi ∧ hi ≤ s.length then some ((s.take hi).drop lo) else none

/-- `strings.Split(s, string(sep))` for a one-character separator. -/
def goSplitCh (sep : Char) : GoStr → List GoStr
  | [] => [[]]
  | c :: rest =>
    match goSplitCh sep rest with
    | [] => [[]]
    | h :: t => if c = sep then [] :: h :: t else (c :: h) :: t

/-- `strings.Join(xs, string(sep))` for a one-character separator. -/
def interSep (sep : Char) : List GoStr → GoStr
  | [] => []
  | [x] => x
  | x :: xs => x ++ sep :: interSep sep xs

/-- Numeric value of a digit string (used only under an all-digits guard). -/
def digitsToNat (ds : GoStr) : Nat :=
  ds.foldl (fun a c => a * 10 + (c.toNat - 48)) 0

/-- `strconv.Atoi`: an optional sign followed by at least one digit and
nothing else, within the 64-bit int range; `none` models a non-nil error. -/
def goAtoi (s : GoStr) : Option Int :=
  match s with
  | [] => none
  | c :: rest =>
    let p : Bool × GoStr :=
      if c = '-' then (true, rest) else if c = '+' then (false, rest) else (false, s)
    if p.2 = [] ∨ ¬ p.2.all Char.isDigit then none
    else
      let v : Int := if p.1 then -(digitsToNat p.2 : Int) else (digitsToNat p.2 : Int)
      if v < -(2 ^ 63) ∨ v > 2 ^ 63 - 1 then none else some v

/-! ## Status codes and the control channel

The numeric status constants live in the repository's `status.go`, which is
not among the provided sources.  Modelled from the spec: the name-to-code
table of spec section 6. -/

def StatusReady : Int := 220
def StatusUserOK : Int := 331
def StatusLoggedIn : Int := 230
def StatusCommandOK : Int := 200
def StatusSystem : Int := 211
def StatusBadArguments : Int := 501
def StatusCommandNotImplemented : Int := 202
def StatusPassiveMode : Int := 227
def StatusExtendedPassiveMode : Int := 229
def StatusPathCreated : Int := 257
def StatusRequestedFileActionOK : Int := 250
def StatusRequestFilePending : Int := 350
def StatusAlreadyOpen : Int := 125
def StatusAboutToSend : Int := 150
def StatusClosingDataConnection : Int := 226
def StatusFile : Int := 213

/-- One reply on the control connection: the 3-digit status code and the
message text (as `textproto.ReadResponse` returns it, code prefix
stripped). -/
structure Reply where
  code : Int
  msg : GoStr
deriving DecidableEq

/-- The error values the client surfaces, mirroring the Go error values:
socket-level failures, `textproto.Error` protocol errors, the literal
`errors.New("invalid ... format")` format errors, `strconv` parse errors,
`errors.New(message)` errors quoting the server, and (model-only) fuel
exhaustion of the recursive-delete runner. -/
inductive Err
  | transport (tag : Nat)
  | protocol (code : Int) (msg : GoStr)
  | format (text : String)
  | strconv
  | plain (msg : GoStr)
  | fuel
deriving DecidableEq

/-- What the scripted transport does for one command round trip: deliver a
reply, or fail at the socket level (which also covers a
cancellation-triggered close). -/
inductive Wire
  | reply (r : Reply)
  | down (tag : Nat)
deriving DecidableEq

/-- Outcome of a computation that may, besides succeeding or returning an
error, end in a Go runtime panic (a slice-bounds violation). -/
inductive PRes (α : Type)
  | ok (a : α)
  | err (e : Err)
  | panic
deriving DecidableEq

/-- `ServerConn.cmd`: send one command line and read one reply with
`ReadResponse(expected)`; `expected < 0` accepts any status, and a status
mismatch is a `textproto.Error` carrying the actual code and message. -/
def cmdRun (expected : Int) (w : Wire) : Except Err Reply :=
  match w with
  | .down tag => .error (.transport tag)
  | .reply r =>
    if expected < 0 then .ok r
    else if r.code = expected then .ok r
    else .error (.protocol r.code r.msg)

/-! ## Data-connection negotiation: `epsv`, `pasv`, `getDataConnPort` -/

/-- The parse in `ServerConn.epsv` after a 229 reply:
`line[strings.Index(line, "|||")+3 : strings.LastIndex(line, "|")]`
fed to `strconv.Atoi`; missing delimiters are the format error, and
out-of-range slice bounds are a runtime panic. -/
def epsvParse (line : GoStr) : PRes Int :=
  match goIndex line ['|', '|', '|'], goLastIndex line ['|'] with
  | some s, some e =>
    match goSlice line (s + 3) e with
    | none => .panic
    | some sub =>
      match goAtoi sub with
      | none => .err .strconv
      | some port => .ok port
  | _, _ => .err (.format "invalid EPSV response format")

/-- `ServerConn.epsv`: issue EPSV expecting 229, then parse the port. -/
def epsv (w : Wire) : PRes Int :=
  match cmdRun StatusExtendedPassiveMode w with
  | .error e => .err e
  | .ok r => epsvParse r.msg

/-- The parse in `ServerConn.pasv` after a 227 reply: the text between the
first `(` and the last `)`, split on commas; fewer than 6 fields or
unparsable numbers are errors, out-of-range slice bounds a runtime panic.
`pasvData.getD` stands for Go's `pasvData[4]`/`pasvData[5]`, which the
length guard has made safe. -/
def pasvParse (line : GoStr) : PRes (GoStr × Int) :=
  match goIndex line ['('], goLastIndex line [')'] with
  | some s, some e =>
    match goSlice line (s + 1) e with
    | none => .panic
    | some inner =>
      let pasvData := goSplitCh ',' inner
      if pasvData.length < 6 then .err (.format "invalid PASV response format")
      else
        match goAtoi (pasvData.getD 4 []) with
        | none => .err .strconv
        | some p1 =>
          match goAtoi (pasvData.getD 5 []) with
          | none => .err .strconv
          | some p2 => .ok (interSep '.' (pasvData.take 4), p1 * 256 + p2)
  | _, _ => .err (.format "invalid PASV response format")

/-- `ServerConn.pasv`: issue PASV expecting 227, then parse host and port. -/
def pasv (w : Wire) : PRes (GoStr × Int) :=
  match cmdRun StatusPassiveMode w with
  | .error e => .err e
  | .ok r => pasvParse r.msg

/-- The two fields driving negotiation: `dialOptions.disableEPSV`
(immutable configuration) and `ServerConn.skipEPSV` (mutable session
state). -/
structure NegState where
  disableEPSV : Bool
  skipEPSV : Bool
deriving DecidableEq

/-- The scripted server behavior for one `getDataConnPort` call: the reply
to EPSV (consumed only if EPSV is issued) and the reply to PASV. -/
structure NegOracle where
  epsvWire : Wire
  pasvWire : Wire
deriving DecidableEq

/-- What one `getDataConnPort` call did: the session state afterwards,
whether an EPSV command was issued, and the returned host/port or error. -/
structure NegRun where
  state : NegState
  attemptedEPSV : Bool
  result : PRes (GoStr × Int)
deriving DecidableEq

/-- `ServerConn.getDataConnPort`: try EPSV unless disabled or previously
marked unsupported; on an EPSV error set `skipEPSV` and fall through to
PASV.  A panic inside `epsv` unwinds before `skipEPSV` is assigned. -/
def getDataConnPort (host : GoStr) (st : NegState) (o : NegOracle) : NegRun :=
  if !st.disableEPSV && !st.skipEPSV then
    match epsv o.epsvWire with
    | .ok port => ⟨st, true, .ok (host, port)⟩
    | .panic => ⟨st, true, .panic⟩
    | .err _ => ⟨⟨st.disableEPSV, true⟩, true, pasv o.pasvWire⟩
  else
    ⟨st, false, pasv o.pasvWire⟩

/-- The successive data-connection negotiations of one session:
`getDataConnPort` iterated, each call starting from the session state the
previous call left behind. -/
def runNegs (host : GoStr) (st : NegState) : List NegOracle → List NegRun
  | [] => []
  | o :: rest =>
    let r := getDataConnPort host st o
    r :: runNegs host r.state rest

/-! ## Opening a data command: `cmdDataConnFrom` -/

/-- Observable actions of a transfer setup: the data socket was opened, a
REST command was issued, the transfer command was sent, the data socket
was closed. -/
inductive Ev
  | openedData
  | sentREST
  | sentCmd
  | closedData
deriving DecidableEq

/-- The scripted environment of one `cmdDataConnFrom` call: the outcome of
`openDataConn` (negotiation plus dial, taken as one step), the control
channel's reply to REST (consumed only if REST is issued), whether sending
the transfer command line succeeds, and the preliminary reply read with
`ReadResponse(-1)`. -/
structure DataOracle where
  openErr : Option Err
  restWire : Wire
  sendErr : Option Err
  prelimWire : Wire
deriving DecidableEq

/-- The tail of `cmdDataConnFrom` once the data socket is open and any REST
exchange has succeeded: send the transfer command, read the preliminary
reply, and require 125 or 150; on anything else close the data socket and
fail (with a `textproto.Error` on a status mismatch). -/
def transferPhase (evs : List Ev) (o : DataOracle) : List Ev × Except Err Unit :=
  match o.sendErr with
  | some e => (evs ++ [.closedData], .error e)
  | none =>
    match o.prelimWire with
    | .down tag => (evs ++ [.sentCmd, .closedData], .error (.transport tag))
    | .reply r =>
      if r.code ≠ StatusAlreadyOpen ∧ r.code ≠ StatusAboutToSend then
        (evs ++ [.sentCmd, .closedData], .error (.protocol r.code r.msg))
      else
        (evs ++ [.sentCmd], .ok ())

/-- `ServerConn.cmdDataConnFrom`: open the data connection; if
`offset ≠ 0`, issue REST expecting 350 and on failure close the socket and
fail; then run the transfer phase.  Returns the event trace and the
outcome (`ok` means the data connection is handed to the caller, open). -/
def cmdDataConnFrom (offset : Nat) (o : DataOracle) : List Ev × Except Err Unit :=
  match o.openErr with
  | some e => ([], .error e)
  | none =>
    if offset ≠ 0 then
      match cmdRun StatusRequestFilePending o.restWire with
      | .error e => ([.openedData, .sentREST, .closedData], .error e)
      | .ok _ => transferPhase [.openedData, .sentREST] o
    else
      transferPhase [.openedData] o

/-! ## Login and UTF-8 negotiation -/

/-- The command lines Login may send, in the order they appear in the
source. -/
inductive Cmd
  | user
  | pass
  | typeI
  | optsUTF8
  | pbsz
  | prot
deriving DecidableEq

/-- The environment of one `Login` call: the discovered feature keys, the
TLS configuration flag, and the control channel's scripted replies (each
consumed only if the corresponding command is sent). -/
structure LoginEnv where
  features : List GoStr
  tlsOn : Bool
  userWire : Wire
  passWire : Wire
  typeWire : Wire
  utf8Wire : Wire
deriving DecidableEq

/-- `ServerConn.setUTF8`: skipped entirely unless the feature set has a
"UTF8" key; `OPTS UTF8 ON` is read with any-status, replies 501 and 202
are tolerated as success, 200 succeeds, and any other code is
`errors.New(message)`.  Returns the commands sent and the error outcome. -/
def setUTF8 (features : List GoStr) (w : Wire) : List Cmd × Option Err :=
  if !features.contains ('U' :: 'T' :: 'F' :: '8' :: []) then ([], none)
  else
    match cmdRun (-1) w with
    | .error e => ([.optsUTF8], some e)
    | .ok r =>
      if r.code = StatusBadArguments then ([.optsUTF8], none)
      else if r.code = StatusCommandNotImplemented then ([.optsUTF8], none)
      else if r.code ≠ StatusCommandOK then ([.optsUTF8], some (.plain r.msg))
      else ([.optsUTF8], none)

/-- The steps of `Login` after authentication: `TYPE I` expecting 200, then
`setUTF8`, then — if TLS is configured — best-effort `PBSZ 0` and `PROT P`
whose replies are deliberately ignored; the returned error is the one
`setUTF8` produced. -/
def loginTail (env : LoginEnv) (sent : List Cmd) : List Cmd × Option Err :=
  match cmdRun StatusCommandOK env.typeWire with
  | .error e => (sent ++ [.typeI], some e)
  | .ok _ =>
    let u := setUTF8 env.features env.utf8Wire
    let sent' := sent ++ [Cmd.typeI] ++ u.1
    (if env.tlsOn then sent' ++ [Cmd.pbsz, Cmd.prot] else sent', u.2)

/-- `ServerConn.Login`: send USER reading any status; 230 proceeds with no
password, 331 sends PASS expecting 230, and any other status fails with
`errors.New(message)`.  Returns the commands sent and the error outcome. -/
def Login (env : LoginEnv) : List Cmd × Option Err :=
  match cmdRun (-1) env.userWire with
  | .error e => ([.user], some e)
  | .ok r =>
    if r.code = StatusLoggedIn then loginTail env [.user]
    else if r.code = StatusUserOK then
      match cmdRun StatusLoggedIn env.passWire with
      | .error e => ([.user, .pass], some e)
      | .ok _ => loginTail env [.user, .pass]
    else
      ([.user], some (.plain r.msg))

/-! ## The data-connection `Response` and its close -/

/-- Socket-level actions of `Response.Close`. -/
inductive CloseEv
  | closedSocket
  | readFinalReply
deriving DecidableEq

/-- The environment of one `Response.Close` call: the outcome of
`conn.Close()` and the control channel's terminal reply read with
`ReadResponse(226)`. -/
structure CloseOracle where
  sockClose : Option Err
  finalWire : Wire
deriving DecidableEq

/-- The data-connection `Response`: just its `closed` flag matters here. -/
structure RespState where
  closed : Bool
deriving DecidableEq

/-- `Response.Close`: a no-op returning nil once `closed` is set; otherwise
close the socket, synchronously read the terminal 226 reply (whose error,
if any, wins), set `closed`, and return. -/
def respClose (st : RespState) (o : CloseOracle) : RespState × List CloseEv × Option Err :=
  if st.closed then (st, [], none)
  else
    let err2 : Option Err :=
      match cmdRun StatusClosingDataConnection o.finalWire with
      | .error e => some e
      | .ok _ => none
    (⟨true⟩, [.closedSocket, .readFinalReply],
      match err2 with
      | some e => some e
      | none => o.sockClose)

/-! ## Upload: `StorFrom` -/

/-- The environment of one `StorFrom` call: the data-command phase, the
outcome of `io.Copy` from the caller's reader, and the final control
reply read with `ReadResponse(226)`. -/
structure StorOracle where
  dataCmd : DataOracle
  copyErr : Option Err
  finalWire : Wire
deriving DecidableEq

/-- `ServerConn.StorFrom`: open the data command for STOR, copy the
caller's bytes, close the data socket unconditionally, report any copy
error, else read the final reply requiring 226.  Go's `ReadResponse`
returns the code alongside a mismatch error, and 0 on earlier failures. -/
def StorFrom (offset : Nat) (o : StorOracle) : List Ev × Int × Option Err :=
  match cmdDataConnFrom offset o.dataCmd with
  | (evs, .error e) => (evs, 0, some e)
  | (evs, .ok _) =>
    let evs' := evs ++ [Ev.closedData]
    match o.copyErr with
    | some e => (evs', 0, some e)
    | none =>
      match o.finalWire with
      | .down tag => (evs', 0, some (.transport tag))
      | .reply r =>
        if r.code = StatusClosingDataConnection then (evs', r.code, none)
        else (evs', r.code, some (.protocol r.code r.msg))

/-! ## `CurrentDir` -/

/-- The parse in `ServerConn.CurrentDir` after a 257 reply:
`msg[strings.Index(msg, quote)+1 : strings.LastIndex(msg, quote)]`; both
quotes missing is the format error (with the source's spelling), and
out-of-range slice bounds are a runtime panic. -/
def pwdParse (msg : GoStr) : PRes GoStr :=
  match goIndex msg ['"'], goLastIndex msg ['"'] with
  | some s, some e =>
    match goSlice msg (s + 1) e with
    | none => .panic
    | some sub => .ok sub
  | _, _ => .err (.format "unsuported PWD response format")

/-- `ServerConn.CurrentDir`: issue PWD expecting 257, then parse the quoted
path out of the message. -/
def CurrentDir (w : Wire) : PRes GoStr :=
  match cmdRun StatusPathCreated w with
  | .error e => .err e
  | .ok r => pwdParse r.msg

/-! ## Listings: `NameList` and `List` -/

/-- What arrives on a listing's data socket: the received lines, then
either clean end-of-stream (`none`) or a read error (`some e`). -/
structure ListStream where
  lines : List GoStr
  final : Option Err
deriving DecidableEq

/-- The scan loop of `ServerConn.NameList`: append every received line to
the accumulator; when the scanner stops with an error, return the entries
accumulated so far together with that error.  (Per-line deadline renewal
and the never-fired cancellation check are not observable here.) -/
def nameListLoop (acc : List GoStr) : List GoStr → Option Err → List GoStr × Option Err
  | [], none => (acc, none)
  | [], some e => (acc, some e)
  | l :: rest, f => nameListLoop (acc ++ [l]) rest f

/-- The scan loop of `ServerConn.List`: parse each received line with the
selected parser, silently skipping lines that fail to parse; when the
scanner stops with an error, return nil entries together with that
error. -/
def listLoop {α : Type} (parser : GoStr → Option α) (acc : List α) :
    List GoStr → Option Err → List α × Option Err
  | [], none => (acc, none)
  | [], some e => ([], some e)
  | l :: rest, f =>
    match parser l with
    | some entry => listLoop parser (acc ++ [entry]) rest f
    | none => listLoop parser acc rest f

/-- `ServerConn.NameList`: open the data command for NLST (offset 0), then
scan the data socket line by line. -/
def NameList (o : DataOracle) (st : ListStream) : List GoStr × Option Err :=
  match cmdDataConnFrom 0 o with
  | (_, .error e) => ([], some e)
  | (_, .ok _) => nameListLoop [] st.lines st.final

/-- `ServerConn.List` (named `ListCmd` as `List` is taken in Lean): open
the data command for MLSD or LIST (offset 0), then scan the data socket
line by line through the capability-selected parser. -/
def ListCmd {α : Type} (parser : GoStr → Option α) (o : DataOracle) (st : ListStream) :
    List α × Option Err :=
  match cmdDataConnFrom 0 o with
  | (_, .error e) => ([], some e)
  | (_, .ok _) => listLoop parser [] st.lines st.final

/-! ## The remote file system and `RemoveDirRecur`

The server side of the directory commands is the external collaborator
here; it is modelled honestly over an explicit tree (RFC 959 semantics:
CWD/LIST resolve a path to a directory, DELE removes a file relative to
the current directory, RMD removes an empty directory, CDUP moves to the
parent).  On top of that, faults can be injected into the control channel:
each command consumes one entry of a fault schedule, and a `some e` entry
makes that command fail with `e`. -/

/-- A node of the remote file system: a named file (or symlink — anything
deleted with DELE) or a named directory with its children. -/
inductive FsNode
  | file (name : GoStr)
  | dir (name : GoStr) (children : List FsNode)

def FsNode.name : FsNode → GoStr
  | .file n => n
  | .dir n _ => n

def FsNode.isDir : FsNode → Bool
  | .file _ => false
  | .dir _ _ => true

/-- The first child with the given name. -/
def childNamed (ns : List FsNode) (n : GoStr) : Option FsNode :=
  ns.find? fun e => e.name == n

/-- The children of the directory reached by following the path from the
given node list. -/
def dirAt (ns : List FsNode) : List GoStr → Option (List FsNode)
  | [] => some ns
  | n :: p =>
    match childNamed ns n with
    | some (.dir _ cs) => dirAt cs p
    | _ => none

/-- The node at a nonempty path. -/
def nodeAt (ns : List FsNode) : List GoStr → Option FsNode
  | [] => none
  | [n] => childNamed ns n
  | n :: p =>
    match childNamed ns n with
    | some (.dir _ cs) => nodeAt cs p
    | _ => none

/-- Apply `k` to the first child with the given name (the one `childNamed`
reads), leaving everything else in place. -/
def upd1 (n : GoStr) (k : FsNode → FsNode) : List FsNode → List FsNode
  | [] => []
  | e :: rest => if e.name == n then k e :: rest else e :: upd1 n k rest

/-- Rewrite with `f` the children of the directory the path reaches (the
same first-match resolution `dirAt` uses). -/
def updAt (f : List FsNode → List FsNode) : List GoStr → List FsNode → List FsNode
  | [], ns => f ns
  | n :: p, ns =>
    upd1 n (fun e =>
      match e with
      | .dir m cs => .dir m (updAt f p cs)
      | fl => fl) ns

/-- Remove the first child with the given name. -/
def removeChild (n : GoStr) : List FsNode → List FsNode
  | [] => []
  | e :: rest => if e.name == n then rest else e :: removeChild n rest

/-- Remove the entry at a nonempty path (first-match resolution, as
everywhere). -/
def removeAt : List GoStr → List FsNode → List FsNode
  | [], ns => ns
  | [n], ns => removeChild n ns
  | n :: p, ns =>
    upd1 n (fun e =>
      match e with
      | .dir m cs => .dir m (removeAt p cs)
      | fl => fl) ns

/-- Replace the children of the directory at the path. -/
def setChildren (new : List FsNode) : List GoStr → List FsNode → List FsNode :=
  updAt fun _ => new

/-- The server's state: the tree under the root and the current working
directory. -/
structure Srv where
  root : List FsNode
  cwd : List GoStr

/-- The components of a path string: split on slashes, empty components
(leading slash, doubled slashes) dropped. -/
def pathComps (s : GoStr) : List GoStr :=
  (goSplitCh '/' s).filter fun c => !(c == [])

/-- Resolution of a path argument against the current directory: absolute
if it starts with a slash, else relative. -/
def resolve (s : Srv) (p : GoStr) : List GoStr :=
  if p.head? = some '/' then pathComps p else s.cwd ++ pathComps p

/-- The absolute current directory as PWD reports it. -/
def pwdOf (s : Srv) : GoStr := '/' :: interSep '/' s.cwd

/-- CWD: succeeds exactly when the resolved path is a directory. -/
def chdir (s : Srv) (p : GoStr) : Except Err Srv :=
  match dirAt s.root (resolve s p) with
  | some _ => .ok ⟨s.root, resolve s p⟩
  | none => .error (.protocol 550 [])

/-- LIST/MLSD, already parsed: the listing holds the `.` and `..`
pseudo-entries first, then each child's name and kind. -/
def listDir (s : Srv) (p : GoStr) : Except Err (List (GoStr × Bool)) :=
  match dirAt s.root (resolve s p) with
  | some cs => .ok ((['.'], true) :: (['.', '.'], true) :: cs.map fun e => (e.name, e.isDir))
  | none => .error (.protocol 450 [])

/-- A deletion the server performed, recorded with the absolute path it
affected. -/
inductive DelEv
  | dele (path : List GoStr)
  | rmd (path : List GoStr)
deriving DecidableEq

def evPath : DelEv → List GoStr
  | .dele p => p
  | .rmd p => p

/-- DELE: succeeds exactly when the resolved path is a file. -/
def delServer (s : Srv) (name : GoStr) : Except Err (Srv × DelEv) :=
  match nodeAt s.root (resolve s name) with
  | some (.file _) =>
    .ok (⟨removeAt (resolve s name) s.root, s.cwd⟩, .dele (resolve s name))
  | _ => .error (.protocol 550 [])

/-- CDUP: always succeeds, moving to the parent (the root is its own
parent). -/
def cdup (s : Srv) : Srv := ⟨s.root, s.cwd.dropLast⟩

/-- RMD: succeeds exactly when the resolved path is an empty directory. -/
def rmdServer (s : Srv) (p : GoStr) : Except Err (Srv × DelEv) :=
  if resolve s p = [] then .error (.protocol 550 [])
  else
    match dirAt s.root (resolve s p) with
    | some [] => .ok (⟨removeAt (resolve s p) s.root, s.cwd⟩, .rmd (resolve s p))
    | _ => .error (.protocol 550 [])

/-- One control-command round trip under a fault schedule: the head fault,
if set, overrides the honest outcome; either way one schedule entry is
consumed (an exhausted schedule injects nothing). -/
def prim {α : Type} (fs : List (Option Err)) (honest : Except Err α) :
    Except Err α × List (Option Err) :=
  match fs with
  | [] => (honest, [])
  | none :: rest => (honest, rest)
  | some e :: rest => (.error e, rest)

mutual

/-- `ServerConn.RemoveDirRecur`: change into `path`; read back the absolute
current directory; list it; process the entries; change to the parent and
remove the directory at the recorded absolute path.  Every failure returns
immediately with the deletions performed so far.  `fuel` bounds the
recursion depth of the model (the Go function recurses unboundedly). -/
def runRm (fuel : Nat) (s : Srv) (fs : List (Option Err)) (path : GoStr) :
    List DelEv × Except Err Srv × List (Option Err) :=
  match fuel with
  | 0 => ([], .error .fuel, fs)
  | fuel' + 1 =>
    match prim fs (chdir s path) with
    | (.error e, fs1) => ([], .error e, fs1)
    | (.ok s1, fs1) =>
      match prim fs1 (Except.ok (pwdOf s1)) with
      | (.error e, fs2) => ([], .error e, fs2)
      | (.ok cur, fs2) =>
        match prim fs2 (listDir s1 cur) with
        | (.error e, fs3) => ([], .error e, fs3)
        | (.ok entries, fs3) =>
          match runEntries fuel' s1 fs3 cur entries with
          | (evs, .error e, fs4) => (evs, .error e, fs4)
          | (evs, .ok s2, fs4) =>
            match prim fs4 (Except.ok (cdup s2)) with
            | (.error e, fs5) => (evs, .error e, fs5)
            | (.ok s3, fs5) =>
              match prim fs5 (rmdServer s3 cur) with
              | (.error e, fs6) => (evs, .error e, fs6)
              | (.ok sd, fs6) => (evs ++ [sd.2], .ok sd.1, fs6)
termination_by (fuel, 0)

/-- The entry loop of `RemoveDirRecur`: skip the `.` and `..`
pseudo-entries, recurse into directories via the absolute child path,
delete files by bare name; stop at the first error. -/
def runEntries (fuel : Nat) (s : Srv) (fs : List (Option Err)) (cur : GoStr) :
    List (GoStr × Bool) → List DelEv × Except Err Srv × List (Option Err)
  | [] => ([], .ok s, fs)
  | ent :: rest =>
    if ent.1 = ['.'] ∨ ent.1 = ['.', '.'] then runEntries fuel s fs cur rest
    else if ent.2 then
      match runRm fuel s fs (cur ++ '/' :: ent.1) with
      | (evs, .error e, fs1) => (evs, .error e, fs1)
      | (evs, .ok s1, fs1) =>
        let r := runEntries fuel s1 fs1 cur rest
        (evs ++ r.1, r.2.1, r.2.2)
    else
      match prim fs (delServer s ent.1) with
      | (.error e, fs1) => ([], .error e, fs1)
      | (.ok sd, fs1) =>
        let r := runEntries fuel sd.1 fs1 cur rest
        (sd.2 :: r.1, r.2.1, r.2.2)
termination_by ents => (fuel, ents.length + 1)

end

mutual

/-- The size of a subtree, bounding the fuel the runner needs. -/
def sizeNode : FsNode → Nat
  | .file _ => 1
  | .dir _ cs => 1 + sizeList cs

def sizeList : List FsNode → Nat
  | [] => 0
  | e :: rest => sizeNode e + sizeList rest

end

mutual

/-- The deletion schedule the algorithm performs on a node at the given
absolute directory: depth first, a directory's contents before the
directory itself. -/
def planNode (abs : List GoStr) : FsNode → List DelEv
  | .file n => [.dele (abs ++ [n])]
  | .dir n cs => planList (abs ++ [n]) cs ++ [.rmd (abs ++ [n])]

/-- The deletion schedule for a list of siblings, in listing order. -/
def planList (abs : List GoStr) : List FsNode → List DelEv
  | [] => []
  | e :: rest => planNode abs e ++ planList abs rest

end

mutual

/-- The absolute paths of all nodes of a subtree. -/
def pathsNode (abs : List GoStr) : FsNode → List (List GoStr)
  | .file n => [abs ++ [n]]
  | .dir n cs => pathsList (abs ++ [n]) cs ++ [abs ++ [n]]

def pathsList (abs : List GoStr) : List FsNode → List (List GoStr)
  | [] => []
  | e :: rest => pathsNode abs e ++ pathsList abs rest

end

/-- A name an FTP client can round-trip through path strings: nonempty, no
slash, and not a pseudo-entry. -/
def wfName (n : GoStr) : Bool :=
  !(n == []) && !(n.contains '/') && !(n == ['.']) && !(n == ['.', '.'])

/-- No two siblings share a name. -/
def distinctNames : List FsNode → Bool
  | [] => true
  | e :: rest => !(rest.any fun f => f.name == e.name) && distinctNames rest

mutual

/-- Well-formed node: its name is well formed and, for a directory, its
children are well formed with distinct names. -/
def wfNode : FsNode → Bool
  | .file n => wfName n
  | .dir n cs => wfName n && wfChildren cs && distinctNames cs

def wfChildren : List FsNode → Bool
  | [] => true
  | e :: rest => wfNode e && wfChildren rest

end

/-- Well-formed tree: well-formed children with distinct names at the
root. -/
def wfTree (ns : List FsNode) : Bool := wfChildren ns && distinctNames ns

/-- A fault schedule that injects nothing. -/
def allNone (fs : List (Option Err)) : Prop := ∀ x ∈ fs, x = none

/-- Once a directory's removal is recorded, no later event may touch
anything strictly under it: with full coverage this says every child is
deleted before its parent. -/
def noUnderAfter : List DelEv → Prop
  | [] => True
  | ev :: rest =>
    (∀ p, ev = .rmd p → ∀ ev' ∈ rest, ¬ (p <+: evPath ev' ∧ evPath ev' ≠ p)) ∧
      noUnderAfter rest

/-! ## Helper lemmas -/

theorem cmdRun_any (r : Reply) : cmdRun (-1) (.reply r) = .ok r := by
  simp [cmdRun]

theorem cmdRun_hit {expected : Int} (r : Reply) (h0 : 0 ≤ expected)
    (h : r.code = expected) : cmdRun expected (.reply r) = .ok r := by
  simp [cmdRun, h, not_lt.mpr h0]

theorem cmdRun_miss {expected : Int} (r : Reply) (h0 : 0 ≤ expected)
    (h : r.code ≠ expected) :
    cmdRun expected (.reply r) = .error (.protocol r.code r.msg) := by
  simp [cmdRun, h, not_lt.mpr h0]

theorem goLastIndex_le {s sub : GoStr} {e : Nat} (h : goLastIndex s sub = some e) :
    e ≤ s.length := by
  have := List.mem_of_find?_eq_some h
  have : e ∈ List.range (s.length + 1) := List.mem_reverse.mp this
  exact Nat.lt_succ_iff.mp (List.mem_range.mp this)

/-! ## C2: malformed EPSV/PASV replies -/

/-- C2 (code bug): the claim says a malformed EPSV/PASV reply line always
comes back as a format error and the negotiation never fails any other
way; but a 229 reply whose only bars are the trailing `|||` (here
`foo|||`) drives `line[start+3:end]` to out-of-range bounds and panics,
and a 227 reply whose last `)` precedes its first `(` (here `x) (y`) does
the same to `line[start+1:end]`; truly delimiter-less or short replies do
produce the format errors the claim describes. -/
theorem c2_malformed_reply_crashes :
    epsv (.reply ⟨229, 'f' :: 'o' :: 'o' :: '|' :: '|' :: '|' :: []⟩) = .panic ∧
    pasv (.reply ⟨227, 'x' :: ')' :: ' ' :: '(' :: 'y' :: []⟩) = .panic ∧
    epsv (.reply ⟨229, 'n' :: 'o' :: []⟩)
      = .err (.format "invalid EPSV response format") ∧
    pasv (.reply ⟨227, '(' :: '1' :: ',' :: '2' :: ')' :: []⟩)
      = .err (.format "invalid PASV response format") := by
  refine ⟨by decide, by decide, by decide, by decide⟩

/-! ## C6: UTF-8 negotiation -/

/-- C6: `OPTS UTF8 ON` is sent iff the feature set has the UTF8 token; a
501 or 202 reply is tolerated as success, 200 succeeds, and any other
reply code is returned as an error carrying the server's message. -/
theorem c6_utf8_negotiation :
    (∀ (features : List GoStr) (w : Wire),
        (Cmd.optsUTF8 ∈ (setUTF8 features w).1) ↔
          features.contains ('U' :: 'T' :: 'F' :: '8' :: []) = true) ∧
    (∀ (features : List GoStr) (r : Reply),
        features.contains ('U' :: 'T' :: 'F' :: '8' :: []) = true →
        (r.code = StatusBadArguments ∨ r.code = StatusCommandNotImplemented ∨
          r.code = StatusCommandOK) →
        (setUTF8 features (.reply r)).2 = none) ∧
    (∀ (features : List GoStr) (r : Reply),
        features.contains ('U' :: 'T' :: 'F' :: '8' :: []) = true →
        r.code ≠ StatusBadArguments → r.code ≠ StatusCommandNotImplemented →
        r.code ≠ StatusCommandOK →
        (setUTF8 features (.reply r)).2 = some (.plain r.msg)) := by
  refine ⟨?_, ?_, ?_⟩
  · intro features w
    cases hc : features.contains ('U' :: 'T' :: 'F' :: '8' :: []) with
    | false =>
      rw [setUTF8, if_pos (by rw [hc]; rfl)]
      simp [hc]
    | true =>
      rw [setUTF8, if_neg (by simp [List.mem_of_elem_eq_true hc])]
      simp only [iff_true]
      cases cmdRun (-1) w with
      | error e => simp
      | ok r =>
        dsimp only
        split_ifs <;> simp
  · intro features r hc hcode
    rw [setUTF8, if_neg (by simp [List.mem_of_elem_eq_true hc]), cmdRun_any]
    rcases hcode with h | h | h
    · simp [h]
    · by_cases h1 : r.code = StatusBadArguments <;> simp [h1, h]
    · by_cases h1 : r.code = StatusBadArguments <;>
        by_cases h2 : r.code = StatusCommandNotImplemented <;> simp [h1, h2, h]
  · intro features r hc h1 h2 h3
    rw [setUTF8, if_neg (by simp [List.mem_of_elem_eq_true hc]), cmdRun_any]
    simp [h1, h2, h3]

/-- Witness for C6: with the UTF8 feature advertised, a 501 reply is
treated as success. -/
theorem c6_utf8_negotiation_witness :
    (setUTF8 [('U' :: 'T' :: 'F' :: '8' :: [])] (.reply ⟨501, []⟩)).2 = none :=
  c6_utf8_negotiation.2.1 _ ⟨501, []⟩ (by decide) (Or.inl rfl)

/-! ## C7: idempotent close of the data connection -/

/-- C7: the first `Response.Close` closes the socket and synchronously
reads the terminal 226 reply; once `closed` is set, every further call
performs no socket operation and returns nil. -/
theorem c7_close_idempotent :
    (∀ (st : RespState) (o : CloseOracle), st.closed = true →
        respClose st o = (st, [], none)) ∧
    (∀ o : CloseOracle,
        (respClose ⟨false⟩ o).1.closed = true ∧
        (respClose ⟨false⟩ o).2.1 = [CloseEv.closedSocket, CloseEv.readFinalReply]) ∧
    (∀ o o' : CloseOracle,
        respClose (respClose ⟨false⟩ o).1 o' = ((respClose ⟨false⟩ o).1, [], none)) := by
  refine ⟨?_, ?_, ?_⟩
  · intro st o h
    simp [respClose, h]
  · intro o
    simp [respClose]
  · intro o o'
    have h : (respClose ⟨false⟩ o).1.closed = true := by simp [respClose]
    simp [respClose, h]

/-- Witness for C7: a concrete double close — the second call is a no-op
returning nil. -/
theorem c7_close_idempotent_witness :
    respClose (respClose ⟨false⟩ ⟨none, .reply ⟨226, []⟩⟩).1 ⟨none, .reply ⟨226, []⟩⟩
      = ((respClose ⟨false⟩ ⟨none, .reply ⟨226, []⟩⟩).1, [], none) :=
  c7_close_idempotent.2.2 ⟨none, .reply ⟨226, []⟩⟩ ⟨none, .reply ⟨226, []⟩⟩

/-! ## C9: CurrentDir's quoted-path parse -/

/-- C9 counterexample: a 257 reply whose message holds exactly one
double-quote character makes `CurrentDir` panic (slice bounds out of
range) — it neither returns a substring nor a format error. -/
theorem c9_single_quote_panics :
    CurrentDir (.reply ⟨257, ['"']⟩) = .panic := by decide

/-- C9 (amended): with no double-quote in the 257 message `CurrentDir`
fails with the format error; with the first double-quote strictly before
the last it returns the text strictly between them; with exactly one
double-quote (first index equal to last) it panics on out-of-range slice
bounds instead of returning anything. -/
theorem c9_current_dir_amended :
    ∀ msg : GoStr,
      (goIndex msg ['"'] = none →
        CurrentDir (.reply ⟨StatusPathCreated, msg⟩)
          = .err (.format "unsuported PWD response format")) ∧
      (∀ s e, goIndex msg ['"'] = some s → goLastIndex msg ['"'] = some e → s < e →
        CurrentDir (.reply ⟨StatusPathCreated, msg⟩) = .ok ((msg.take e).drop (s + 1))) ∧
      (∀ s, goIndex msg ['"'] = some s → goLastIndex msg ['"'] = some s →
        CurrentDir (.reply ⟨StatusPathCreated, msg⟩) = .panic) := by
  intro msg
  have hcmd : cmdRun StatusPathCreated (.reply ⟨StatusPathCreated, msg⟩)
      = .ok ⟨StatusPathCreated, msg⟩ := cmdRun_hit _ (by norm_num [StatusPathCreated]) rfl
  refine ⟨?_, ?_, ?_⟩
  · intro h
    simp [CurrentDir, hcmd, pwdParse, h]
  · intro s e hs he hlt
    have hle : e ≤ msg.length := goLastIndex_le he
    simp only [CurrentDir, hcmd, pwdParse, hs, he]
    rw [goSlice, if_pos ⟨by omega, hle⟩]
  · intro s hs he
    simp only [CurrentDir, hcmd, pwdParse, hs, he]
    rw [goSlice, if_neg (by omega)]

/-- Witness for C9: a well-formed 257 message yields the quoted path, and
a quote-less one the format error. -/
theorem c9_current_dir_amended_witness :
    CurrentDir (.reply ⟨StatusPathCreated, '"' :: 'a' :: '"' :: []⟩) = .ok ['a'] ∧
    CurrentDir (.reply ⟨StatusPathCreated, 'o' :: 'k' :: []⟩)
      = .err (.format "unsuported PWD response format") :=
  ⟨(c9_current_dir_amended ('"' :: 'a' :: '"' :: [])).2.1 0 2 (by decide) (by decide)
      (by decide),
    (c9_current_dir_amended ('o' :: 'k' :: [])).1 (by decide)⟩

/-! ## C10: partial results of NameList versus List -/

theorem nameListLoop_final (acc : List GoStr) (lines : List GoStr) (e : Err) :
    nameListLoop acc lines (some e) = (acc ++ lines, some e) := by
  induction lines generalizing acc with
  | nil => simp [nameListLoop]
  | cons l rest ih => simp [nameListLoop, ih]

theorem listLoop_final {α : Type} (parser : GoStr → Option α) (acc : List α)
    (lines : List GoStr) (e : Err) :
    listLoop parser acc lines (some e) = ([], some e) := by
  induction lines generalizing acc with
  | nil => simp [listLoop]
  | cons l rest ih =>
    rw [listLoop]
    cases parser l <;> simp [ih]

/-- C10: when the data socket's line stream ends in a read error,
`NameList` returns the names accumulated so far together with the error,
while `List` returns nil entries together with the error. -/
theorem c10_listing_partial_results :
    (∀ (o : DataOracle) (lines : List GoStr) (e : Err),
        (cmdDataConnFrom 0 o).2 = .ok () →
        NameList o ⟨lines, some e⟩ = (lines, some e)) ∧
    (∀ (α : Type) (parser : GoStr → Option α) (o : DataOracle) (lines : List GoStr)
        (e : Err),
        (cmdDataConnFrom 0 o).2 = .ok () →
        ListCmd parser o ⟨lines, some e⟩ = ([], some e)) := by
  constructor
  · intro o lines e hok
    rw [NameList]
    rcases h : cmdDataConnFrom 0 o with ⟨evs, res⟩
    rw [h] at hok
    cases res with
    | error e' => exact absurd hok (by simp at hok)
    | ok u => simpa using nameListLoop_final [] lines e
  · intro α parser o lines e hok
    rw [ListCmd]
    rcases h : cmdDataConnFrom 0 o with ⟨evs, res⟩
    rw [h] at hok
    cases res with
    | error e' => exact absurd hok (by simp at hok)
    | ok u => simpa using listLoop_final parser [] lines e

/-- Witness for C10: a concrete two-line stream cut off by a read error —
NameList keeps both lines, List keeps none. -/
theorem c10_listing_partial_results_witness :
    NameList ⟨none, .reply ⟨350, []⟩, none, .reply ⟨150, []⟩⟩
        ⟨[['a'], ['b']], some (.transport 3)⟩ = ([['a'], ['b']], some (.transport 3)) ∧
    ListCmd (fun l => some l) ⟨none, .reply ⟨350, []⟩, none, .reply ⟨150, []⟩⟩
        ⟨[['a'], ['b']], some (.transport 3)⟩ = ([], some (.transport 3)) :=
  ⟨c10_listing_partial_results.1 _ [['a'], ['b']] (.transport 3) rfl,
    c10_listing_partial_results.2 GoStr (fun l => some l) _ [['a'], ['b']]
      (.transport 3) rfl⟩

/-! ## C5: Login branching -/

theorem setUTF8_cmds (features : List GoStr) (w : Wire) :
    (setUTF8 features w).1 = [] ∨ (setUTF8 features w).1 = [Cmd.optsUTF8] := by
  rw [setUTF8]
  split_ifs
  · exact Or.inl rfl
  · cases cmdRun (-1) w with
    | error e => exact Or.inr rfl
    | ok r =>
      dsimp only
      split_ifs <;> exact Or.inr rfl

theorem loginTail_pass (env : LoginEnv) (sent : List Cmd) :
    Cmd.pass ∈ (loginTail env sent).1 ↔ Cmd.pass ∈ sent := by
  rw [loginTail]
  cases cmdRun StatusCommandOK env.typeWire with
  | error e => simp
  | ok r =>
    dsimp only
    rcases setUTF8_cmds env.features env.utf8Wire with hu | hu <;>
      cases hb : env.tlsOn <;> simp [hb, hu]

/-- C5: Login sends USER and branches on the reply — 230 completes the
authentication without ever sending PASS, 331 sends PASS and requires 230
(so a wrong password, answered with any other status, fails with a
protocol error), and any other status fails with an error carrying the
server's message; with the post-authentication steps succeeding, a
USER reply of 230 makes the whole Login succeed with no PASS sent. -/
theorem c5_login_branches :
    (∀ (env : LoginEnv) (r : Reply), env.userWire = .reply r →
        r.code = StatusLoggedIn →
        Cmd.pass ∉ (Login env).1 ∧ Login env = loginTail env [.user]) ∧
    (∀ (env : LoginEnv) (r : Reply), env.userWire = .reply r →
        r.code = StatusUserOK → Cmd.pass ∈ (Login env).1) ∧
    (∀ (env : LoginEnv) (r pr : Reply), env.userWire = .reply r →
        r.code = StatusUserOK → env.passWire = .reply pr →
        pr.code ≠ StatusLoggedIn →
        Login env = ([.user, .pass], some (.protocol pr.code pr.msg))) ∧
    (∀ (env : LoginEnv) (r : Reply), env.userWire = .reply r →
        r.code ≠ StatusLoggedIn → r.code ≠ StatusUserOK →
        Login env = ([.user], some (.plain r.msg))) ∧
    (∀ (env : LoginEnv) (r tr : Reply), env.userWire = .reply r →
        r.code = StatusLoggedIn → env.typeWire = .reply tr →
        tr.code = StatusCommandOK → (setUTF8 env.features env.utf8Wire).2 = none →
        (Login env).2 = none ∧ Cmd.pass ∉ (Login env).1) := by
  have hlogin : ∀ (env : LoginEnv) (r : Reply), env.userWire = .reply r →
      r.code = StatusLoggedIn → Login env = loginTail env [.user] := by
    intro env r hw hc
    rw [Login, hw, cmdRun_any]
    dsimp only
    rw [if_pos hc]
  refine ⟨?_, ?_, ?_, ?_, ?_⟩
  · intro env r hw hc
    rw [hlogin env r hw hc]
    exact ⟨by simp [loginTail_pass], rfl⟩
  · intro env r hw hc
    rw [Login, hw, cmdRun_any]
    dsimp only
    rw [if_neg (by simp [hc, StatusUserOK, StatusLoggedIn]), if_pos hc]
    cases cmdRun StatusLoggedIn env.passWire with
    | error e => simp
    | ok pr => simp [loginTail_pass]
  · intro env r pr hw hc hpw hpc
    rw [Login, hw, cmdRun_any]
    dsimp only
    rw [if_neg (by simp [hc, StatusUserOK, StatusLoggedIn]), if_pos hc, hpw,
      cmdRun_miss pr (by norm_num [StatusLoggedIn]) hpc]
  · intro env r hw h1 h2
    rw [Login, hw, cmdRun_any]
    dsimp only
    rw [if_neg h1, if_neg h2]
  · intro env r tr hw hc htw htc hu
    rw [hlogin env r hw hc]
    constructor
    · rw [loginTail, htw, cmdRun_hit tr (by norm_num [StatusCommandOK]) htc]
      dsimp only
      cases hb : env.tlsOn <;> simp [hb, hu]
    · simp [loginTail_pass]

/-- Witness for C5: a USER reply of 230 with the remaining steps succeeding
logs in without a PASS, and a USER reply of 331 followed by a 530 PASS
reply (wrong password) fails with the protocol error. -/
theorem c5_login_branches_witness :
    (Login ⟨[], false, .reply ⟨230, []⟩, .reply ⟨530, []⟩, .reply ⟨200, []⟩,
        .reply ⟨200, []⟩⟩).2 = none ∧
    Login ⟨[], false, .reply ⟨331, []⟩, .reply ⟨530, ['n', 'o']⟩, .reply ⟨200, []⟩,
        .reply ⟨200, []⟩⟩ = ([.user, .pass], some (.protocol 530 ['n', 'o'])) :=
  ⟨(c5_login_branches.2.2.2.2 _ ⟨230, []⟩ ⟨200, []⟩ rfl rfl rfl rfl (by decide)).1,
    c5_login_branches.2.2.1 _ ⟨331, []⟩ ⟨530, ['n', 'o']⟩ rfl rfl rfl (by decide)⟩

/-! ## C3: opening a data command -/

/-- C3: `cmdDataConnFrom` opens the data socket (failing with the
negotiation/dial error if that fails), issues REST exactly when the offset
is nonzero (closing the socket and failing on any non-350 outcome), then
sends the transfer command and reads the preliminary reply, which must be
125 or 150 — any other status closes the socket and produces a protocol
error carrying the server's code and message, while a send failure also
closes the socket. -/
theorem c3_open_data_command :
    (∀ (offset : Nat) (o : DataOracle) (e : Err), o.openErr = some e →
        cmdDataConnFrom offset o = ([], .error e)) ∧
    (∀ (offset : Nat) (o : DataOracle),
        (Ev.sentREST ∈ (cmdDataConnFrom offset o).1) ↔
          (o.openErr = none ∧ offset ≠ 0)) ∧
    (∀ (offset : Nat) (o : DataOracle) (e : Err), o.openErr = none → offset ≠ 0 →
        cmdRun StatusRequestFilePending o.restWire = .error e →
        cmdDataConnFrom offset o = ([.openedData, .sentREST, .closedData], .error e)) ∧
    (∀ (offset : Nat) (o : DataOracle) (r : Reply), o.openErr = none → offset ≠ 0 →
        cmdRun StatusRequestFilePending o.restWire = .ok r →
        cmdDataConnFrom offset o = transferPhase [.openedData, .sentREST] o) ∧
    (∀ o : DataOracle, o.openErr = none →
        cmdDataConnFrom 0 o = transferPhase [.openedData] o) ∧
    (∀ (evs : List Ev) (o : DataOracle) (e : Err), o.sendErr = some e →
        transferPhase evs o = (evs ++ [.closedData], .error e)) ∧
    (∀ (evs : List Ev) (o : DataOracle) (r : Reply), o.sendErr = none →
        o.prelimWire = .reply r → r.code ≠ StatusAlreadyOpen →
        r.code ≠ StatusAboutToSend →
        transferPhase evs o
          = (evs ++ [.sentCmd, .closedData], .error (.protocol r.code r.msg))) ∧
    (∀ (evs : List Ev) (o : DataOracle) (r : Reply), o.sendErr = none →
        o.prelimWire = .reply r →
        (r.code = StatusAlreadyOpen ∨ r.code = StatusAboutToSend) →
        transferPhase evs o = (evs ++ [.sentCmd], .ok ())) := by
  have hrest : ∀ (evs : List Ev) (o : DataOracle),
      Ev.sentREST ∈ (transferPhase evs o).1 ↔ Ev.sentREST ∈ evs := by
    intro evs o
    rw [transferPhase]
    cases o.sendErr with
    | some e => simp
    | none =>
      cases o.prelimWire with
      | down tag => simp
      | reply r =>
        dsimp only
        split_ifs <;> simp
  refine ⟨?_, ?_, ?_, ?_, ?_, ?_, ?_, ?_⟩
  · intro offset o e h
    rw [cmdDataConnFrom, h]
  · intro offset o
    cases ho : o.openErr with
    | some e => simp [cmdDataConnFrom, ho]
    | none =>
      rw [cmdDataConnFrom, ho]
      dsimp only
      by_cases hoff : offset ≠ 0
      · rw [if_pos hoff]
        cases hr : cmdRun StatusRequestFilePending o.restWire with
        | error e => simp [hoff]
        | ok r => simp [hrest, hoff]
      · rw [if_neg hoff]
        simp [hrest, hoff]
  · intro offset o e ho hoff hr
    rw [cmdDataConnFrom, ho]
    dsimp only
    rw [if_pos hoff, hr]
  · intro offset o r ho hoff hr
    rw [cmdDataConnFrom, ho]
    dsimp only
    rw [if_pos hoff, hr]
  · intro o ho
    rw [cmdDataConnFrom, ho]
    dsimp only
    rw [if_neg (by simp)]
  · intro evs o e h
    rw [transferPhase, h]
  · intro evs o r hs hp h1 h2
    rw [transferPhase, hs]
    dsimp only
    rw [hp]
    dsimp only
    rw [if_pos ⟨h1, h2⟩]
  · intro evs o r hs hp hc
    rw [transferPhase, hs]
    dsimp only
    rw [hp]
    dsimp only
    rw [if_neg (by rcases hc with h | h <;> simp [h])]

/-- Witness for C3: a nonzero offset with a 350 REST reply and a 150
preliminary reply hands back an open connection after REST was sent; a
preliminary 550 closes the socket with a protocol error. -/
theorem c3_open_data_command_witness :
    cmdDataConnFrom 5 ⟨none, .reply ⟨350, []⟩, none, .reply ⟨150, []⟩⟩
      = ([.openedData, .sentREST, .sentCmd], .ok ()) ∧
    transferPhase [.openedData] ⟨none, .reply ⟨350, []⟩, none, .reply ⟨550, ['x']⟩⟩
      = ([.openedData, .sentCmd, .closedData], .error (.protocol 550 ['x'])) := by
  constructor
  · rw [c3_open_data_command.2.2.2.1 5
      ⟨none, .reply ⟨350, []⟩, none, .reply ⟨150, []⟩⟩ ⟨350, []⟩ rfl (by decide)
      (by rfl)]
    exact c3_open_data_command.2.2.2.2.2.2.2 [.openedData, .sentREST]
      ⟨none, .reply ⟨350, []⟩, none, .reply ⟨150, []⟩⟩ ⟨150, []⟩ rfl rfl (Or.inr rfl)
  · exact c3_open_data_command.2.2.2.2.2.2.1 [.openedData] _ ⟨550, ['x']⟩ rfl rfl
      (by decide) (by decide)

/-! ## C8: the upload always closes its data socket -/

/-- C8: over every `StorFrom` execution path the data socket is closed
exactly once whenever it was opened (and never otherwise); once the data
command succeeded, a copy error is reported as the call's error, and
otherwise the final control reply must be 226 — a mismatch is reported as
a protocol error carrying the server's code and message, and Go's
`ReadResponse` hands the mismatched code back alongside it. -/
theorem c8_stor_closes_once :
    (∀ (offset : Nat) (o : StorOracle),
        (StorFrom offset o).1.count Ev.closedData
          = if Ev.openedData ∈ (StorFrom offset o).1 then 1 else 0) ∧
    (∀ (offset : Nat) (o : StorOracle) (e : Err),
        (cmdDataConnFrom offset o.dataCmd).2 = .ok () → o.copyErr = some e →
        (StorFrom offset o).2 = (0, some e)) ∧
    (∀ (offset : Nat) (o : StorOracle) (r : Reply),
        (cmdDataConnFrom offset o.dataCmd).2 = .ok () → o.copyErr = none →
        o.finalWire = .reply r → r.code ≠ StatusClosingDataConnection →
        (StorFrom offset o).2 = (r.code, some (.protocol r.code r.msg))) ∧
    (∀ (offset : Nat) (o : StorOracle) (r : Reply),
        (cmdDataConnFrom offset o.dataCmd).2 = .ok () → o.copyErr = none →
        o.finalWire = .reply r → r.code = StatusClosingDataConnection →
        (StorFrom offset o).2 = (r.code, none)) := by
  refine ⟨?_, ?_, ?_, ?_⟩
  · intro offset o
    obtain ⟨⟨oe, rw', se, pw⟩, ce, fw⟩ := o
    cases oe with
    | some e => simp [StorFrom, cmdDataConnFrom]
    | none =>
      by_cases hoff : offset ≠ 0
      · cases hr : cmdRun StatusRequestFilePending rw' with
        | error e =>
          simp [StorFrom, cmdDataConnFrom, hoff, hr]
        | ok r0 =>
          cases se with
          | some e => simp [StorFrom, cmdDataConnFrom, transferPhase, hoff, hr]
          | none =>
            cases pw with
            | down tag => simp [StorFrom, cmdDataConnFrom, transferPhase, hoff, hr]
            | reply r =>
              by_cases hc : r.code ≠ StatusAlreadyOpen ∧ r.code ≠ StatusAboutToSend
              · simp [StorFrom, cmdDataConnFrom, transferPhase, hoff, hr, hc]
              · cases ce with
                | some e => simp [StorFrom, cmdDataConnFrom, transferPhase, hoff, hr, hc]
                | none =>
                  cases fw with
                  | down t => simp [StorFrom, cmdDataConnFrom, transferPhase, hoff, hr, hc]
                  | reply fr =>
                    by_cases hfc : fr.code = StatusClosingDataConnection <;>
                      simp [StorFrom, cmdDataConnFrom, transferPhase, hoff, hr, hc, hfc]
      · cases se with
        | some e => simp [StorFrom, cmdDataConnFrom, transferPhase, hoff]
        | none =>
          cases pw with
          | down tag => simp [StorFrom, cmdDataConnFrom, transferPhase, hoff]
          | reply r =>
            by_cases hc : r.code ≠ StatusAlreadyOpen ∧ r.code ≠ StatusAboutToSend
            · simp [StorFrom, cmdDataConnFrom, transferPhase, hoff, hc]
            · cases ce with
              | some e => simp [StorFrom, cmdDataConnFrom, transferPhase, hoff, hc]
              | none =>
                cases fw with
                | down t => simp [StorFrom, cmdDataConnFrom, transferPhase, hoff, hc]
                | reply fr =>
                  by_cases hfc : fr.code = StatusClosingDataConnection <;>
                    simp [StorFrom, cmdDataConnFrom, transferPhase, hoff, hc, hfc]
  · intro offset o e hok hce
    rw [StorFrom]
    rcases h : cmdDataConnFrom offset o.dataCmd with ⟨evs, res⟩
    rw [h] at hok
    cases res with
    | error e' => exact absurd hok (by simp at hok)
    | ok u => simp [hce]
  · intro offset o r hok hce hfw hcode
    rw [StorFrom]
    rcases h : cmdDataConnFrom offset o.dataCmd with ⟨evs, res⟩
    rw [h] at hok
    cases res with
    | error e' => exact absurd hok (by simp at hok)
    | ok u => simp [hce, hfw, hcode]
  · intro offset o r hok hce hfw hcode
    rw [StorFrom]
    rcases h : cmdDataConnFrom offset o.dataCmd with ⟨evs, res⟩
    rw [h] at hok
    cases res with
    | error e' => exact absurd hok (by simp at hok)
    | ok u => simp [hce, hfw, hcode]

/-- Witness for C8: with a successful open and a clean copy, a 226 final
reply yields code 226 and no error, and the trace closes the socket
exactly once. -/
theorem c8_stor_closes_once_witness :
    (StorFrom 0 ⟨⟨none, .reply ⟨350, []⟩, none, .reply ⟨150, []⟩⟩, none,
        .reply ⟨226, []⟩⟩).2 = (226, none) :=
  c8_stor_closes_once.2.2.2 0 _ ⟨226, []⟩ rfl rfl rfl rfl

/-! ## C1: the sticky EPSV fallback -/

theorem runNegs_get_run (host : GoStr) :
    ∀ (os : List NegOracle) (st : NegState) (i : Nat) (ri : NegRun),
      (runNegs host st os).get? i = some ri →
      ∃ sti oi, os.get? i = some oi ∧ ri = getDataConnPort host sti oi := by
  intro os
  induction os with
  | nil => intro st i ri h; simp [runNegs] at h
  | cons o rest ih =>
    intro st i ri h
    cases i with
    | zero =>
      rw [runNegs] at h
      simp only [List.get?_cons_zero, Option.some_inj] at h
      exact ⟨st, o, rfl, h.symm⟩
    | succ i' =>
      rw [runNegs] at h
      simp only [List.get?_cons_succ] at h
      obtain ⟨sti, oi, h1, h2⟩ := ih _ i' ri h
      exact ⟨sti, oi, h1, h2⟩

theorem runNegs_drop (host : GoStr) :
    ∀ (os : List NegOracle) (st : NegState) (i : Nat) (ri : NegRun),
      (runNegs host st os).get? i = some ri →
      (runNegs host st os).drop (i + 1) = runNegs host ri.state (os.drop (i + 1)) := by
  intro os
  induction os with
  | nil => intro st i ri h; simp [runNegs] at h
  | cons o rest ih =>
    intro st i ri h
    cases i with
    | zero =>
      rw [runNegs] at h ⊢
      simp only [List.get?_cons_zero, Option.some_inj] at h
      simp [← h]
    | succ i' =>
      rw [runNegs] at h ⊢
      simp only [List.get?_cons_succ] at h
      simpa using ih _ i' ri h

theorem runNegs_of_skip (host : GoStr) :
    ∀ (os : List NegOracle) (st : NegState), st.skipEPSV = true →
      runNegs host st os = os.map fun o => ⟨st, false, pasv o.pasvWire⟩ := by
  intro os
  induction os with
  | nil => intro st h; rfl
  | cons o rest ih =>
    intro st h
    have hstep : getDataConnPort host st o = ⟨st, false, pasv o.pasvWire⟩ := by
      rw [getDataConnPort, if_neg (by simp [h])]
    rw [runNegs, hstep]
    simp [ih st h]

/-- C1: with EPSV disabled by configuration no negotiation of the session
ever issues EPSV; and once an EPSV attempt fails at position `i` of a
session's negotiations, every later negotiation `j` leaves the sticky
`skipEPSV` flag set, does not issue EPSV, and goes directly to classic
PASV on its own oracle. -/
theorem c1_epsv_sticky_fallback :
    (∀ (host : GoStr) (st : NegState) (os : List NegOracle) (r : NegRun),
        st.disableEPSV = true → r ∈ runNegs host st os → r.attemptedEPSV = false) ∧
    (∀ (host : GoStr) (st : NegState) (os : List NegOracle) (i j : Nat)
        (oi : NegOracle) (ri rj : NegRun) (e : Err),
        (runNegs host st os).get? i = some ri → os.get? i = some oi →
        ri.attemptedEPSV = true → epsv oi.epsvWire = .err e →
        i < j → (runNegs host st os).get? j = some rj →
        rj.attemptedEPSV = false ∧ rj.state.skipEPSV = true ∧
          ∃ oj, os.get? j = some oj ∧ rj.result = pasv oj.pasvWire) := by
  constructor
  · intro host st os
    induction os generalizing st with
    | nil => intro r _ h; simp [runNegs] at h
    | cons o rest ih =>
      intro r hd h
      have hstep : getDataConnPort host st o = ⟨st, false, pasv o.pasvWire⟩ := by
        rw [getDataConnPort, if_neg (by simp [hd])]
      rw [runNegs, hstep] at h
      rcases List.mem_cons.mp h with h | h
      · rw [h]
      · exact ih st r hd h
  · intro host st os i j oi ri rj e hgi hoi hatt herr hij hgj
    obtain ⟨sti, oi', hoi', hri⟩ := runNegs_get_run host os st i ri hgi
    rw [hoi] at hoi'
    obtain rfl : oi' = oi := by injection hoi'.symm
    have hskip : ri.state.skipEPSV = true := by
      rw [getDataConnPort] at hri
      by_cases hg : (!sti.disableEPSV && !sti.skipEPSV) = true
      · rw [if_pos hg, herr] at hri
        rw [hri]
      · rw [if_neg hg] at hri
        rw [hri] at hatt
        simp at hatt
    have hdrop := runNegs_drop host os st i ri hgi
    have hmap := runNegs_of_skip host (os.drop (i + 1)) ri.state hskip
    have hj : (runNegs host st os).get? j
        = ((runNegs host st os).drop (i + 1)).get? (j - (i + 1)) := by
      rw [List.get?_drop]
      congr 1
      omega
    rw [hj, hdrop, hmap, List.get?_map] at hgj
    have hoj : (os.drop (i + 1)).get? (j - (i + 1)) = os.get? j := by
      rw [List.get?_drop]
      congr 1
      omega
    cases hoget : (os.drop (i + 1)).get? (j - (i + 1)) with
    | none =>
      rw [hoget, Option.map_none'] at hgj
      exact Option.noConfusion hgj
    | some oj =>
      rw [hoget, Option.map_some'] at hgj
      injection hgj with hgj
      refine ⟨by rw [← hgj], by rw [← hgj]; exact hskip, oj, by rw [← hoj, hoget], ?_⟩
      rw [← hgj]

/-- Witness for C1: a concrete three-negotiation session whose first EPSV
attempt gets a 500 reply — the third negotiation issues no EPSV and uses
its own PASV oracle. -/
theorem c1_epsv_sticky_fallback_witness :
    ∃ rj, (runNegs [] ⟨false, false⟩
        [⟨.reply ⟨500, []⟩, .reply ⟨227, []⟩⟩, ⟨.reply ⟨229, []⟩, .reply ⟨227, []⟩⟩,
          ⟨.reply ⟨229, []⟩, .down 4⟩]).get? 2 = some rj ∧
      rj.attemptedEPSV = false ∧ rj.state.skipEPSV = true ∧
      rj.result = pasv (.down 4) := by
  obtain ⟨h1, h2, oj, h3, h4⟩ := c1_epsv_sticky_fallback.2 [] ⟨false, false⟩
    [⟨.reply ⟨500, []⟩, .reply ⟨227, []⟩⟩, ⟨.reply ⟨229, []⟩, .reply ⟨227, []⟩⟩,
      ⟨.reply ⟨229, []⟩, .down 4⟩] 0 2 ⟨.reply ⟨500, []⟩, .reply ⟨227, []⟩⟩
    ⟨⟨false, true⟩, true, pasv (.reply ⟨227, []⟩)⟩
    ⟨⟨false, true⟩, false, pasv (.down 4)⟩ (.protocol 500 [])
    (by decide) (by decide) (by decide) (by decide) (by decide) (by decide)
  have hoj : oj = ⟨Wire.reply ⟨229, []⟩, Wire.down 4⟩ := by
    have hc : ([⟨.reply ⟨500, []⟩, .reply ⟨227, []⟩⟩, ⟨.reply ⟨229, []⟩, .reply ⟨227, []⟩⟩,
        ⟨.reply ⟨229, []⟩, .down 4⟩] : List NegOracle).get? 2
          = some ⟨Wire.reply ⟨229, []⟩, Wire.down 4⟩ := by decide
    rw [hc] at h3
    injection h3 with h3
    exact h3.symm
  subst hoj
  exact ⟨⟨⟨false, true⟩, false, pasv (.down 4)⟩, by decide, h1, h2, h4⟩

/-! ## Path-string lemmas for the recursive delete -/

theorem goSplitCh_ne_nil (sep : Char) : ∀ s : GoStr, goSplitCh sep s ≠ [] := by
  intro s
  induction s with
  | nil => simp [goSplitCh]
  | cons c rest ih =>
    rw [goSplitCh]
    cases h : goSplitCh sep rest with
    | nil => exact absurd h ih
    | cons h1 t1 =>
      dsimp only
      split_ifs <;> simp

theorem goSplitCh_append (sep : Char) :
    ∀ a b : GoStr, goSplitCh sep (a ++ sep :: b) = goSplitCh sep a ++ goSplitCh sep b := by
  have hsep : ∀ b : GoStr, goSplitCh sep (sep :: b) = [] :: goSplitCh sep b := by
    intro b
    cases h : goSplitCh sep b with
    | nil => exact absurd h (goSplitCh_ne_nil sep b)
    | cons h1 t1 =>
      rw [goSplitCh, h]
      dsimp only
      rw [if_pos rfl]
  intro a
  induction a with
  | nil =>
    intro b
    rw [List.nil_append, hsep]
    rfl
  | cons c rest ih =>
    intro b
    rw [List.cons_append, goSplitCh, ih b]
    cases h : goSplitCh sep rest with
    | nil => exact absurd h (goSplitCh_ne_nil sep rest)
    | cons h1 t1 =>
      rw [goSplitCh, h]
      dsimp only
      split_ifs <;> simp

theorem goSplitCh_no_sep (sep : Char) :
    ∀ a : GoStr, sep ∉ a → goSplitCh sep a = [a] := by
  intro a
  induction a with
  | nil => intro _; rfl
  | cons c rest ih =>
    intro h
    rw [goSplitCh, ih (fun hm => h (List.mem_cons_of_mem c hm))]
    dsimp only
    rw [if_neg (fun hc => h (by rw [← hc]; exact List.mem_cons_self c rest))]

theorem pathComps_append_slash (a b : GoStr) :
    pathComps (a ++ '/' :: b) = pathComps a ++ pathComps b := by
  rw [pathComps, pathComps, pathComps, goSplitCh_append, List.filter_append]

theorem pathComps_slash (s : GoStr) : pathComps ('/' :: s) = pathComps s := by
  have h := pathComps_append_slash [] s
  rw [List.nil_append] at h
  rw [h]
  rfl

theorem pathComps_of_wf (n : GoStr) (h1 : n ≠ []) (h2 : '/' ∉ n) :
    pathComps n = [n] := by
  rw [pathComps, goSplitCh_no_sep _ _ h2]
  cases n with
  | nil => exact absurd rfl h1
  | cons c cs => rfl

theorem pathComps_inter :
    ∀ t : List GoStr, (∀ c ∈ t, c ≠ [] ∧ '/' ∉ c) →
      pathComps ('/' :: interSep '/' t) = t := by
  intro t
  induction t with
  | nil => intro _; rfl
  | cons x xs ih =>
    intro h
    have hx := h x (List.mem_cons_self x xs)
    cases xs with
    | nil =>
      rw [show interSep '/' [x] = x from rfl, pathComps_slash,
        pathComps_of_wf x hx.1 hx.2]
    | cons y ys =>
      rw [show interSep '/' (x :: y :: ys) = x ++ '/' :: interSep '/' (y :: ys) from rfl,
        pathComps_slash, pathComps_append_slash, pathComps_of_wf x hx.1 hx.2]
      have hys := ih fun c hc => h c (List.mem_cons_of_mem x hc)
      rw [pathComps_slash] at hys
      rw [hys]
      rfl

theorem pathComps_inter_child (t : List GoStr) (n : GoStr)
    (ht : ∀ c ∈ t, c ≠ [] ∧ '/' ∉ c) (h1 : n ≠ []) (h2 : '/' ∉ n) :
    pathComps (('/' :: interSep '/' t) ++ '/' :: n) = t ++ [n] := by
  rw [List.cons_append, pathComps_slash, pathComps_append_slash,
    pathComps_of_wf n h1 h2]
  have h := pathComps_inter t ht
  rw [pathComps_slash] at h
  rw [h]

theorem resolve_abs (root : List FsNode) (cwd : List GoStr) (s : GoStr) :
    resolve ⟨root, cwd⟩ ('/' :: s) = pathComps ('/' :: s) := by
  rw [resolve]
  simp

theorem resolve_rel (root : List FsNode) (cwd : List GoStr) (n : GoStr)
    (h1 : n ≠ []) (h2 : '/' ∉ n) : resolve ⟨root, cwd⟩ n = cwd ++ [n] := by
  rw [resolve, if_neg ?hn, pathComps_of_wf n h1 h2]
  case hn =>
    intro hh
    cases n with
    | nil => exact h1 rfl
    | cons c cs =>
      rw [List.head?_cons, Option.some_inj] at hh
      exact h2 (hh ▸ List.mem_cons_self c cs)

/-! ## First-match tree algebra -/

theorem childNamed_cons (n : GoStr) (e : FsNode) (rest : List FsNode) :
    childNamed (e :: rest) n
      = if (e.name == n) = true then some e else childNamed rest n := by
  by_cases he : (e.name == n) = true
  · rw [if_pos he, childNamed, List.find?, he]
  · rw [if_neg he, childNamed, childNamed, List.find?,
      show (e.name == n) = false from by simpa using he]

theorem upd1_cons (n : GoStr) (k : FsNode → FsNode) (e : FsNode)
    (rest : List FsNode) :
    upd1 n k (e :: rest)
      = if (e.name == n) = true then k e :: rest else e :: upd1 n k rest := rfl

theorem childNamed_upd1 (n : GoStr) (k : FsNode → FsNode)
    (hk : ∀ e, (k e).name = e.name) :
    ∀ ns : List FsNode, childNamed (upd1 n k ns) n = (childNamed ns n).map k := by
  intro ns
  induction ns with
  | nil => rfl
  | cons e rest ih =>
    by_cases he : (e.name == n) = true
    · rw [upd1_cons, if_pos he, childNamed_cons, if_pos (by rw [hk e]; exact he),
        childNamed_cons, if_pos he, Option.map_some']
    · rw [upd1_cons, if_neg he, childNamed_cons, if_neg he, childNamed_cons,
        if_neg he, ih]

theorem upd1_comp (n : GoStr) (k₁ k₂ : FsNode → FsNode)
    (hk : ∀ e, (k₁ e).name = e.name) :
    ∀ ns : List FsNode, upd1 n k₂ (upd1 n k₁ ns) = upd1 n (fun e => k₂ (k₁ e)) ns := by
  intro ns
  induction ns with
  | nil => rfl
  | cons e rest ih =>
    by_cases he : (e.name == n) = true
    · rw [upd1_cons, if_pos he, upd1_cons, if_pos (by rw [hk e]; exact he),
        upd1_cons, if_pos he]
    · rw [upd1_cons, if_neg he, upd1_cons, if_neg he, upd1_cons, if_neg he, ih]

theorem upd1_of_found (n : GoStr) (k k' : FsNode → FsNode) :
    ∀ (ns : List FsNode) (e : FsNode), childNamed ns n = some e → k e = k' e →
      upd1 n k ns = upd1 n k' ns := by
  intro ns
  induction ns with
  | nil => intro e h _; exact absurd h (by simp [childNamed])
  | cons f rest ih =>
    intro e h hke
    rw [childNamed_cons] at h
    by_cases hf : (f.name == n) = true
    · rw [if_pos hf] at h
      injection h with h
      rw [upd1_cons, if_pos hf, upd1_cons, if_pos hf, h, hke]
    · rw [if_neg hf] at h
      rw [upd1_cons, if_neg hf, upd1_cons, if_neg hf, ih e h hke]

theorem upd1_self (n : GoStr) : ∀ ns : List FsNode, upd1 n (fun e => e) ns = ns := by
  intro ns
  induction ns with
  | nil => rfl
  | cons e rest ih =>
    rw [upd1_cons]
    split_ifs <;> simp [ih]

theorem updAt_ext (F G : List FsNode → List FsNode) (h : ∀ cs, F cs = G cs)
    (p : List GoStr) (ns : List FsNode) : updAt F p ns = updAt G p ns := by
  have hFG : F = G := funext h
  rw [hFG]

theorem dirAt_updAt (f : List FsNode → List FsNode) :
    ∀ (p : List GoStr) (ns : List FsNode),
      dirAt (updAt f p ns) p = (dirAt ns p).map f := by
  intro p
  induction p with
  | nil => intro ns; rfl
  | cons n q ih =>
    intro ns
    rw [updAt, dirAt, dirAt,
      childNamed_upd1 n _ (fun e => by cases e <;> rfl) ns]
    cases hc : childNamed ns n with
    | none => rfl
    | some e =>
      cases e with
      | file m => rfl
      | dir m cs =>
        dsimp only
        exact ih cs

theorem upd1_ext (n : GoStr) (k k' : FsNode → FsNode) (h : ∀ e, k e = k' e)
    (ns : List FsNode) : upd1 n k ns = upd1 n k' ns := by
  rw [funext h]

theorem updAt_comp (f g : List FsNode → List FsNode) :
    ∀ (p : List GoStr) (ns : List FsNode),
      updAt g p (updAt f p ns) = updAt (fun cs => g (f cs)) p ns := by
  intro p
  induction p with
  | nil => intro ns; rfl
  | cons n q ih =>
    intro ns
    rw [updAt, updAt, updAt,
      upd1_comp n _ _ (fun e => by cases e <;> rfl) ns]
    refine upd1_ext n _ _ (fun e => ?_) ns
    cases e with
    | file m => rfl
    | dir m cs =>
      dsimp only
      rw [ih cs]

theorem updAt_append (f : List FsNode → List FsNode) :
    ∀ (q p : List GoStr) (ns : List FsNode),
      updAt f (q ++ p) ns = updAt (updAt f p) q ns := by
  intro q p
  induction q with
  | nil => intro ns; rfl
  | cons n q' ih =>
    intro ns
    rw [List.cons_append, updAt, updAt]
    refine upd1_ext n _ _ (fun e => ?_) ns
    cases e with
    | file m => rfl
    | dir m cs =>
      dsimp only
      rw [ih cs]

theorem updAt_congr (f g : List FsNode → List FsNode) :
    ∀ (p : List GoStr) (ns cs : List FsNode), dirAt ns p = some cs →
      f cs = g cs → updAt f p ns = updAt g p ns := by
  intro p
  induction p with
  | nil =>
    intro ns cs h hfg
    rw [dirAt] at h
    injection h with h
    rw [updAt, updAt, h, hfg]
  | cons n q ih =>
    intro ns cs h hfg
    rw [dirAt] at h
    cases hc : childNamed ns n with
    | none => rw [hc] at h; exact absurd h (by simp)
    | some e =>
      rw [hc] at h
      cases e with
      | file m => exact absurd h (by simp)
      | dir m cs₀ =>
        dsimp only at h
        rw [updAt, updAt]
        refine upd1_of_found n _ _ ns (.dir m cs₀) hc ?_
        dsimp only
        rw [ih cs₀ cs h hfg]

theorem updAt_id : ∀ (p : List GoStr) (ns : List FsNode),
    updAt (fun cs => cs) p ns = ns := by
  intro p
  induction p with
  | nil => intro ns; rfl
  | cons n q ih =>
    intro ns
    rw [updAt]
    have h : upd1 n (fun e =>
        match e with
        | FsNode.dir m cs => FsNode.dir m (updAt (fun cs => cs) q cs)
        | fl => fl) ns = upd1 n (fun e => e) ns := by
      refine upd1_ext n _ _ (fun e => ?_) ns
      cases e with
      | file m => rfl
      | dir m cs =>
        dsimp only
        rw [ih cs]
    rw [h, upd1_self]

theorem setChildren_of_empty (p : List GoStr) (ns : List FsNode)
    (h : dirAt ns p = some []) : setChildren [] p ns = ns := by
  rw [setChildren, updAt_congr _ (fun cs => cs) p ns [] h rfl, updAt_id]

theorem dirAt_concat :
    ∀ (t : List GoStr) (n : GoStr) (ns : List FsNode),
      dirAt ns (t ++ [n])
        = (dirAt ns t).bind fun cs =>
            match childNamed cs n with
            | some (FsNode.dir _ cs') => some cs'
            | _ => none := by
  intro t
  induction t with
  | nil =>
    intro n ns
    rw [List.nil_append, dirAt, Option.some_bind, dirAt]
    cases hc : childNamed ns n with
    | none => rfl
    | some e => cases e <;> rfl
  | cons m q ih =>
    intro n ns
    rw [List.cons_append, dirAt, dirAt]
    cases hc : childNamed ns m with
    | none => rfl
    | some e =>
      cases e with
      | file _ => rfl
      | dir _ cs => exact ih n cs

theorem nodeAt_concat :
    ∀ (t : List GoStr) (n : GoStr) (ns : List FsNode),
      nodeAt ns (t ++ [n]) = (dirAt ns t).bind fun cs => childNamed cs n := by
  intro t
  induction t with
  | nil =>
    intro n ns
    rw [List.nil_append, dirAt, Option.some_bind]
    rfl
  | cons m q ih =>
    intro n ns
    have hstep : nodeAt ns (m :: (q ++ [n])) = (match childNamed ns m with
        | some (FsNode.dir _ cs) => nodeAt cs (q ++ [n])
        | _ => none) := by
      cases q with
      | nil => rfl
      | cons a q' => rfl
    rw [List.cons_append, hstep, dirAt]
    cases hc : childNamed ns m with
    | none => rfl
    | some e =>
      cases e with
      | file _ => rfl
      | dir _ cs => exact ih n cs

theorem removeAt_concat :
    ∀ (q : List GoStr) (n : GoStr) (ns : List FsNode),
      removeAt (q ++ [n]) ns = updAt (removeChild n) q ns := by
  intro q
  induction q with
  | nil => intro n ns; rfl
  | cons m q' ih =>
    intro n ns
    cases q' with
    | nil =>
      rw [show (([m] : List GoStr) ++ [n]) = [m, n] from rfl]
      rw [show removeAt [m, n] ns = upd1 m (fun e =>
        match e with
        | FsNode.dir k cs => FsNode.dir k (removeAt [n] cs)
        | fl => fl) ns from rfl]
      rw [updAt]
      refine upd1_ext m _ _ (fun e => ?_) ns
      cases e <;> rfl
    | cons a q'' =>
      rw [show ((m :: a :: q'') ++ [n]) = m :: ((a :: q'') ++ [n]) from rfl]
      rw [show removeAt (m :: ((a :: q'') ++ [n])) ns = upd1 m (fun e =>
        match e with
        | FsNode.dir k cs => FsNode.dir k (removeAt ((a :: q'') ++ [n]) cs)
        | fl => fl) ns from by rw [List.cons_append]; rfl]
      rw [updAt]
      refine upd1_ext m _ _ (fun e => ?_) ns
      cases e with
      | file k => rfl
      | dir k cs =>
        dsimp only
        rw [ih n cs]

/-! ## Well-formedness bookkeeping -/

theorem wfName_spec (n : GoStr) (h : wfName n = true) :
    n ≠ [] ∧ '/' ∉ n ∧ n ≠ ['.'] ∧ n ≠ ['.', '.'] := by
  rw [wfName] at h
  simp only [Bool.and_eq_true, Bool.not_eq_true'] at h
  obtain ⟨⟨⟨h1, h2⟩, h3⟩, h4⟩ := h
  refine ⟨by simpa using h1, ?_, by simpa using h3, by simpa using h4⟩
  intro hm
  have h5 : List.elem '/' n = false := h2
  rw [List.elem_eq_true_of_mem hm] at h5
  exact Bool.noConfusion h5

theorem wfChildren_mem : ∀ (ns : List FsNode) (e : FsNode),
    wfChildren ns = true → e ∈ ns → wfNode e = true := by
  intro ns
  induction ns with
  | nil => intro e _ hm; exact absurd hm (List.not_mem_nil e)
  | cons f rest ih =>
    intro e h hm
    rw [wfChildren, Bool.and_eq_true] at h
    rcases List.mem_cons.mp hm with rfl | hm
    · exact h.1
    · exact ih e h.2 hm

theorem wfNode_name (e : FsNode) (h : wfNode e = true) : wfName e.name = true := by
  cases e with
  | file n => exact h
  | dir n cs =>
    rw [wfNode, Bool.and_eq_true, Bool.and_eq_true] at h
    exact h.1.1

theorem wfNode_dir (n : GoStr) (cs : List FsNode)
    (h : wfNode (.dir n cs) = true) :
    wfChildren cs = true ∧ distinctNames cs = true := by
  rw [wfNode, Bool.and_eq_true, Bool.and_eq_true] at h
  exact ⟨h.1.2, h.2⟩

theorem wfChildren_tail (e : FsNode) (rest : List FsNode)
    (h : wfChildren (e :: rest) = true) : wfChildren rest = true := by
  rw [wfChildren, Bool.and_eq_true] at h
  exact h.2

theorem distinctNames_tail (e : FsNode) (rest : List FsNode)
    (h : distinctNames (e :: rest) = true) : distinctNames rest = true := by
  rw [distinctNames, Bool.and_eq_true] at h
  exact h.2

theorem dirAt_wf : ∀ (t : List GoStr) (root sub : List FsNode),
    wfChildren root = true → distinctNames root = true → dirAt root t = some sub →
    wfChildren sub = true ∧ distinctNames sub = true ∧ (∀ c ∈ t, c ≠ [] ∧ '/' ∉ c) := by
  intro t
  induction t with
  | nil =>
    intro root sub h1 h2 h
    rw [dirAt] at h
    injection h with h
    exact ⟨h ▸ h1, h ▸ h2, by simp⟩
  | cons n q ih =>
    intro root sub h1 h2 h
    rw [dirAt] at h
    cases hc : childNamed root n with
    | none => rw [hc] at h; exact absurd h (by simp)
    | some e =>
      rw [hc] at h
      cases e with
      | file m => exact absurd h (by simp)
      | dir m cs =>
        dsimp only at h
        have hmem : FsNode.dir m cs ∈ root := List.mem_of_find?_eq_some hc
        have hwf := wfChildren_mem root _ h1 hmem
        have hname : m = n := by
          have := List.find?_some hc
          exact eq_of_beq this
        have hn := wfName_spec _ (wfNode_name _ hwf)
        obtain ⟨hcs, hdn⟩ := wfNode_dir m cs hwf
        obtain ⟨g1, g2, g3⟩ := ih cs sub hcs hdn h
        refine ⟨g1, g2, ?_⟩
        intro c hcmem
        rcases List.mem_cons.mp hcmem with rfl | hcm
        · exact hname ▸ ⟨hn.1, hn.2.1⟩
        · exact g3 c hcm

/-! ## Size bookkeeping -/

theorem sizeNode_pos (e : FsNode) : 1 ≤ sizeNode e := by
  cases e with
  | file n => exact le_refl 1
  | dir n cs => rw [sizeNode]; omega

theorem prim_of_allNone {α : Type} (fs : List (Option Err)) (h : allNone fs)
    (x : Except Err α) : prim fs x = (x, fs.tail) ∧ allNone fs.tail := by
  cases fs with
  | nil => exact ⟨rfl, by intro y hy; exact absurd hy (List.not_mem_nil y)⟩
  | cons o rest =>
    have ho : o = none := h o (List.mem_cons_self o rest)
    subst ho
    exact ⟨rfl, fun y hy => h y (List.mem_cons_of_mem none hy)⟩

/-! ## The fault-free run follows the depth-first plan -/

theorem runRm_plan : ∀ fuel : Nat,
    (∀ (root : List FsNode) (cwd : List GoStr) (path : GoStr)
        (fs : List (Option Err)) (t : List GoStr) (sub : List FsNode),
      resolve ⟨root, cwd⟩ path = t → t ≠ [] → dirAt root t = some sub →
      wfChildren sub = true → distinctNames sub = true →
      (∀ c ∈ t, c ≠ [] ∧ '/' ∉ c) → sizeList sub < fuel → allNone fs →
      ∃ fs', runRm fuel ⟨root, cwd⟩ fs path
          = (planList t sub ++ [.rmd t],
             .ok ⟨removeAt t (setChildren [] t root), t.dropLast⟩, fs')
        ∧ allNone fs') ∧
    (∀ t : List GoStr, (∀ c ∈ t, c ≠ [] ∧ '/' ∉ c) →
      ∀ (pending root : List FsNode) (fs : List (Option Err)),
      dirAt root t = some pending → wfChildren pending = true →
      distinctNames pending = true → sizeList pending ≤ fuel → allNone fs →
      ∃ fs', runEntries fuel ⟨root, t⟩ fs ('/' :: interSep '/' t)
            (pending.map fun e => (e.name, e.isDir))
          = (planList t pending, .ok ⟨setChildren [] t root, t⟩, fs')
        ∧ allNone fs') := by
  intro fuel
  induction fuel with
  | zero =>
    constructor
    · intro root cwd path fs t sub _ _ _ _ _ _ h7 _
      exact absurd h7 (Nat.not_lt_zero _)
    · intro t hcomps pending root fs hdir hwf hdist hsize hfs
      cases pending with
      | nil =>
        refine ⟨fs, ?_, hfs⟩
        rw [show (([] : List FsNode).map fun e => (e.name, e.isDir)) = [] from rfl,
          runEntries, setChildren_of_empty t root hdir, planList]
      | cons e rest =>
        rw [sizeList] at hsize
        have := sizeNode_pos e
        omega
  | succ f ihf =>
    obtain ⟨ih1, ih2⟩ := ihf
    have P1succ : ∀ (root : List FsNode) (cwd : List GoStr) (path : GoStr)
        (fs : List (Option Err)) (t : List GoStr) (sub : List FsNode),
        resolve ⟨root, cwd⟩ path = t → t ≠ [] → dirAt root t = some sub →
        wfChildren sub = true → distinctNames sub = true →
        (∀ c ∈ t, c ≠ [] ∧ '/' ∉ c) → sizeList sub < f + 1 → allNone fs →
        ∃ fs', runRm (f + 1) ⟨root, cwd⟩ fs path
            = (planList t sub ++ [.rmd t],
               .ok ⟨removeAt t (setChildren [] t root), t.dropLast⟩, fs')
          ∧ allNone fs' := by
      intro root cwd path fs t sub h1 h2 h3 h4 h5 h6 h7 h8
      rw [runRm]
      obtain ⟨hp1, ha1⟩ := prim_of_allNone fs h8 (chdir ⟨root, cwd⟩ path)
      have hch : chdir ⟨root, cwd⟩ path = .ok ⟨root, t⟩ := by
        rw [chdir, h1, h3]
      rw [hp1, hch]
      dsimp only
      obtain ⟨hp2, ha2⟩ := prim_of_allNone fs.tail ha1
        (Except.ok (pwdOf ⟨root, t⟩) : Except Err GoStr)
      rw [hp2]
      dsimp only
      rw [show pwdOf (⟨root, t⟩ : Srv) = '/' :: interSep '/' t from rfl]
      have hres : resolve ⟨root, t⟩ ('/' :: interSep '/' t) = t := by
        rw [resolve_abs, pathComps_inter t h6]
      have hld : listDir ⟨root, t⟩ ('/' :: interSep '/' t)
          = .ok ((['.'], true) :: (['.', '.'], true)
              :: sub.map fun e => (e.name, e.isDir)) := by
        rw [listDir, hres, h3]
      obtain ⟨hp3, ha3⟩ := prim_of_allNone fs.tail.tail ha2
        (listDir ⟨root, t⟩ ('/' :: interSep '/' t))
      rw [hp3, hld]
      dsimp only
      rw [runEntries, if_pos (Or.inl rfl), runEntries, if_pos (Or.inr rfl)]
      obtain ⟨fs4, hrun, ha4⟩ := ih2 t h6 sub root fs.tail.tail.tail h3 h4 h5
        (by omega) ha3
      rw [hrun]
      dsimp only
      obtain ⟨hp5, ha5⟩ := prim_of_allNone fs4 ha4
        (Except.ok (cdup ⟨setChildren [] t root, t⟩) : Except Err Srv)
      rw [hp5]
      dsimp only
      rw [show cdup (⟨setChildren [] t root, t⟩ : Srv)
          = ⟨setChildren [] t root, t.dropLast⟩ from rfl]
      have hresr : resolve ⟨setChildren [] t root, t.dropLast⟩
          ('/' :: interSep '/' t) = t := by
        rw [resolve_abs, pathComps_inter t h6]
      have hrm : rmdServer ⟨setChildren [] t root, t.dropLast⟩
          ('/' :: interSep '/' t)
          = .ok (⟨removeAt t (setChildren [] t root), t.dropLast⟩, .rmd t) := by
        rw [rmdServer, hresr, if_neg h2]
        have hda : dirAt (setChildren [] t root) t = some [] := by
          rw [setChildren, dirAt_updAt, h3, Option.map_some']
        rw [hda]
      obtain ⟨hp6, ha6⟩ := prim_of_allNone fs4.tail ha5
        (rmdServer ⟨setChildren [] t root, t.dropLast⟩ ('/' :: interSep '/' t))
      rw [hp6, hrm]
      dsimp only
      exact ⟨fs4.tail.tail, rfl, ha6⟩
    have P2succ : ∀ t : List GoStr, (∀ c ∈ t, c ≠ [] ∧ '/' ∉ c) →
        ∀ (pending root : List FsNode) (fs : List (Option Err)),
        dirAt root t = some pending → wfChildren pending = true →
        distinctNames pending = true → sizeList pending ≤ f + 1 → allNone fs →
        ∃ fs', runEntries (f + 1) ⟨root, t⟩ fs ('/' :: interSep '/' t)
              (pending.map fun e => (e.name, e.isDir))
            = (planList t pending, .ok ⟨setChildren [] t root, t⟩, fs')
          ∧ allNone fs' := by
      intro t hcomps pending
      induction pending with
      | nil =>
        intro root fs hdir hwf hdist hsize hfs
        refine ⟨fs, ?_, hfs⟩
        rw [show (([] : List FsNode).map fun e => (e.name, e.isDir)) = [] from rfl,
          runEntries, setChildren_of_empty t root hdir, planList]
      | cons e rest ihrest =>
        intro root fs hdir hwf hdist hsize hfs
        have hwe : wfNode e = true := wfChildren_mem _ e hwf (List.mem_cons_self e rest)
        have hwrest : wfChildren rest = true := wfChildren_tail _ _ hwf
        have hdrest : distinctNames rest = true := distinctNames_tail _ _ hdist
        have hname := wfName_spec _ (wfNode_name _ hwe)
        rw [show ((e :: rest).map fun x => (x.name, x.isDir))
            = (e.name, e.isDir) :: rest.map (fun x => (x.name, x.isDir)) from rfl,
          runEntries, if_neg (by
            intro hc
            rcases hc with hc | hc
            · exact hname.2.2.1 hc
            · exact hname.2.2.2 hc)]
        cases e with
        | file n =>
          rw [show ((FsNode.file n).name, (FsNode.file n).isDir) = (n, false)
            from rfl]
          dsimp only
          rw [if_neg (by simp)]
          have hresn : resolve ⟨root, t⟩ n = t ++ [n] :=
            resolve_rel root t n hname.1 hname.2.1
          have hnode : nodeAt root (t ++ [n]) = some (.file n) := by
            rw [nodeAt_concat, hdir, Option.some_bind, childNamed_cons,
              if_pos (by simp [FsNode.name])]
          have hdel : delServer ⟨root, t⟩ n
              = .ok (⟨removeAt (t ++ [n]) root, t⟩, .dele (t ++ [n])) := by
            rw [delServer, hresn, hnode]
          obtain ⟨hp, ha⟩ := prim_of_allNone fs hfs (delServer ⟨root, t⟩ n)
          rw [hp, hdel]
          dsimp only
          rw [removeAt_concat]
          have hdir1 : dirAt (updAt (removeChild n) t root) t = some rest := by
            rw [dirAt_updAt, hdir, Option.map_some',
              show removeChild n (FsNode.file n :: rest) = rest from by
                rw [removeChild, if_pos (by simp [FsNode.name])]]
          rw [sizeList, sizeNode] at hsize
          obtain ⟨fs2, hrun, ha2⟩ := ihrest (updAt (removeChild n) t root) fs.tail
            hdir1 hwrest hdrest (by omega) ha
          rw [hrun]
          have hsc : setChildren [] t (updAt (removeChild n) t root)
              = setChildren [] t root := by
            rw [setChildren, updAt_comp]
          refine ⟨fs2, ?_, ha2⟩
          rw [hsc, planList, planNode, List.singleton_append]
        | dir n cs =>
          rw [show ((FsNode.dir n cs).name, (FsNode.dir n cs).isDir) = (n, true)
            from rfl]
          dsimp only
          rw [if_pos (by simp)]
          have hresc : resolve ⟨root, t⟩ (('/' :: interSep '/' t) ++ '/' :: n)
              = t ++ [n] := by
            rw [List.cons_append, resolve_abs, ← List.cons_append,
              pathComps_inter_child t n hcomps hname.1 hname.2.1]
          have hdirc : dirAt root (t ++ [n]) = some cs := by
            rw [dirAt_concat, hdir, Option.some_bind, childNamed_cons,
              if_pos (by simp [FsNode.name])]
          obtain ⟨hwcs, hdcs⟩ := wfNode_dir n cs hwe
          rw [sizeList, sizeNode] at hsize
          obtain ⟨fs1, hchild, ha1⟩ := P1succ root t
            (('/' :: interSep '/' t) ++ '/' :: n) fs (t ++ [n]) cs hresc
            (by simp) hdirc hwcs hdcs
            (by
              intro c hc
              rcases List.mem_append.mp hc with hc | hc
              · exact hcomps c hc
              · rw [List.mem_singleton.mp hc]
                exact ⟨hname.1, hname.2.1⟩)
            (by omega) hfs
          rw [List.dropLast_concat] at hchild
          rw [hchild]
          dsimp only
          have hdir2 : dirAt (removeAt (t ++ [n]) (setChildren [] (t ++ [n]) root)) t
              = some rest := by
            rw [removeAt_concat, setChildren, updAt_append, updAt_comp,
              dirAt_updAt, hdir, Option.map_some']
            rw [show updAt (fun _ => ([] : List FsNode)) [n]
                  (FsNode.dir n cs :: rest) = FsNode.dir n [] :: rest from by
                rw [updAt, upd1_cons, if_pos (by simp [FsNode.name])]
                rfl,
              show removeChild n (FsNode.dir n [] :: rest) = rest from by
                rw [removeChild, if_pos (by simp [FsNode.name])]]
          obtain ⟨fs2, hrun, ha2⟩ := ihrest
            (removeAt (t ++ [n]) (setChildren [] (t ++ [n]) root)) fs1
            hdir2 hwrest hdrest (by omega) ha1
          rw [hrun]
          have hsc : setChildren [] t
              (removeAt (t ++ [n]) (setChildren [] (t ++ [n]) root))
              = setChildren [] t root := by
            rw [removeAt_concat, setChildren, updAt_append, updAt_comp,
              updAt_comp]
          refine ⟨fs2, ?_, ha2⟩
          rw [hsc, planList, planNode, List.append_assoc]
    exact ⟨P1succ, P2succ⟩

/-! ## Order and coverage of the deletion plan -/

theorem plan_paths : ∀ k : Nat,
    (∀ (e : FsNode) (abs : List GoStr), sizeNode e ≤ k →
      ∀ ev ∈ planNode abs e, (abs ++ [e.name]) <+: evPath ev) ∧
    (∀ (ns : List FsNode) (abs : List GoStr), sizeList ns ≤ k →
      ∀ ev ∈ planList abs ns, ∃ x ∈ ns, (abs ++ [x.name]) <+: evPath ev) := by
  intro k
  induction k with
  | zero =>
    constructor
    · intro e abs hs
      have := sizeNode_pos e
      omega
    · intro ns abs hs ev hev
      cases ns with
      | nil => rw [planList] at hev; exact absurd hev (List.not_mem_nil ev)
      | cons e rest =>
        rw [sizeList] at hs
        have := sizeNode_pos e
        omega
  | succ k ihk =>
    have hnode : ∀ (e : FsNode) (abs : List GoStr), sizeNode e ≤ k + 1 →
        ∀ ev ∈ planNode abs e, (abs ++ [e.name]) <+: evPath ev := by
      intro e abs hs ev hev
      cases e with
      | file n =>
        rw [planNode] at hev
        rcases List.mem_singleton.mp hev with rfl
        exact List.prefix_rfl
      | dir n cs =>
        rw [planNode] at hev
        rcases List.mem_append.mp hev with hev | hev
        · rw [sizeNode] at hs
          obtain ⟨x, _, hx⟩ := ihk.2 cs (abs ++ [n]) (by omega) ev hev
          exact List.IsPrefix.trans (List.prefix_append _ _) hx
        · rcases List.mem_singleton.mp hev with rfl
          exact List.prefix_rfl
    have hlist : ∀ (ns : List FsNode) (abs : List GoStr), sizeList ns ≤ k + 1 →
        ∀ ev ∈ planList abs ns, ∃ x ∈ ns, (abs ++ [x.name]) <+: evPath ev := by
      intro ns
      induction ns with
      | nil => intro abs _ ev hev; rw [planList] at hev; exact absurd hev (List.not_mem_nil ev)
      | cons e rest ih =>
        intro abs hs ev hev
        rw [planList] at hev
        rw [sizeList] at hs
        have h1 := sizeNode_pos e
        rcases List.mem_append.mp hev with hev | hev
        · exact ⟨e, List.mem_cons_self e rest, hnode e abs (by omega) ev hev⟩
        · obtain ⟨x, hx, hpre⟩ := ih abs (by omega) ev hev
          exact ⟨x, List.mem_cons_of_mem e hx, hpre⟩
    exact ⟨hnode, hlist⟩

theorem plan_paths_eq : ∀ k : Nat,
    (∀ (e : FsNode) (abs : List GoStr), sizeNode e ≤ k →
      (planNode abs e).map evPath = pathsNode abs e) ∧
    (∀ (ns : List FsNode) (abs : List GoStr), sizeList ns ≤ k →
      (planList abs ns).map evPath = pathsList abs ns) := by
  intro k
  induction k with
  | zero =>
    constructor
    · intro e abs hs
      have := sizeNode_pos e
      omega
    · intro ns abs hs
      cases ns with
      | nil => rfl
      | cons e rest =>
        rw [sizeList] at hs
        have := sizeNode_pos e
        omega
  | succ k ihk =>
    have hnode : ∀ (e : FsNode) (abs : List GoStr), sizeNode e ≤ k + 1 →
        (planNode abs e).map evPath = pathsNode abs e := by
      intro e abs hs
      cases e with
      | file n => rfl
      | dir n cs =>
        rw [sizeNode] at hs
        rw [planNode, pathsNode, List.map_append, ihk.2 cs (abs ++ [n]) (by omega)]
        rfl
    have hlist : ∀ (ns : List FsNode) (abs : List GoStr), sizeList ns ≤ k + 1 →
        (planList abs ns).map evPath = pathsList abs ns := by
      intro ns
      induction ns with
      | nil => intro abs _; rfl
      | cons e rest ih =>
        intro abs hs
        rw [sizeList] at hs
        have h1 := sizeNode_pos e
        rw [planList, pathsList, List.map_append, hnode e abs (by omega),
          ih abs (by omega)]
    exact ⟨hnode, hlist⟩

theorem noUnderAfter_append (A B : List DelEv) (hA : noUnderAfter A)
    (hB : noUnderAfter B)
    (hcross : ∀ p, DelEv.rmd p ∈ A → ∀ ev ∈ B, ¬(p <+: evPath ev ∧ evPath ev ≠ p)) :
    noUnderAfter (A ++ B) := by
  induction A with
  | nil => simpa using hB
  | cons a A' ih =>
    rw [List.cons_append, noUnderAfter]
    obtain ⟨ha1, ha2⟩ := hA
    constructor
    · intro p hp ev' hev'
      rcases List.mem_append.mp hev' with hm | hm
      · exact ha1 p hp ev' hm
      · exact hcross p (hp ▸ List.mem_cons_self a A') ev' hm
    · exact ih ha2 fun p hp ev hev => hcross p (List.mem_cons_of_mem a hp) ev hev

theorem distinctNames_head (e : FsNode) (rest : List FsNode)
    (h : distinctNames (e :: rest) = true) : ∀ x ∈ rest, x.name ≠ e.name := by
  rw [distinctNames, Bool.and_eq_true] at h
  intro x hx hn
  have h1 := h.1
  rw [Bool.not_eq_true', List.any_eq_false] at h1
  have := h1 x hx
  rw [hn] at this
  simp at this

theorem plan_noUnder : ∀ k : Nat,
    (∀ (e : FsNode) (abs : List GoStr), sizeNode e ≤ k → wfNode e = true →
      noUnderAfter (planNode abs e)) ∧
    (∀ (ns : List FsNode) (abs : List GoStr), sizeList ns ≤ k →
      wfChildren ns = true → distinctNames ns = true →
      noUnderAfter (planList abs ns)) := by
  intro k
  induction k with
  | zero =>
    constructor
    · intro e abs hs
      have := sizeNode_pos e
      omega
    · intro ns abs hs _ _
      cases ns with
      | nil => exact trivial
      | cons e rest =>
        rw [sizeList] at hs
        have := sizeNode_pos e
        omega
  | succ k ihk =>
    have hnode : ∀ (e : FsNode) (abs : List GoStr), sizeNode e ≤ k + 1 →
        wfNode e = true → noUnderAfter (planNode abs e) := by
      intro e abs hs hwf
      cases e with
      | file n =>
        rw [planNode]
        exact ⟨(fun p hp => nomatch hp), trivial⟩
      | dir n cs =>
        rw [sizeNode] at hs
        obtain ⟨hwcs, hdcs⟩ := wfNode_dir n cs hwf
        rw [planNode]
        refine noUnderAfter_append _ _ (ihk.2 cs (abs ++ [n]) (by omega) hwcs hdcs)
          ⟨fun p _ ev hev => absurd hev (List.not_mem_nil ev), trivial⟩ ?_
        intro p hp ev hev ⟨hpre, _⟩
        rcases List.mem_singleton.mp hev with rfl
        obtain ⟨x, _, hx⟩ := (plan_paths (k + 1)).2 cs (abs ++ [n]) (by omega)
          (DelEv.rmd p) hp
        have h1 : ((abs ++ [n]) ++ [x.name]).length ≤ p.length :=
          List.IsPrefix.length_le hx
        have h2 : p.length ≤ (abs ++ [n]).length := List.IsPrefix.length_le hpre
        simp only [List.length_append, List.length_singleton] at h1 h2
        omega
    have hlist : ∀ (ns : List FsNode) (abs : List GoStr), sizeList ns ≤ k + 1 →
        wfChildren ns = true → distinctNames ns = true →
        noUnderAfter (planList abs ns) := by
      intro ns
      induction ns with
      | nil => intro abs _ _ _; exact trivial
      | cons e rest ih =>
        intro abs hs hwf hdist
        rw [sizeList] at hs
        have h1 := sizeNode_pos e
        rw [planList]
        refine noUnderAfter_append _ _
          (hnode e abs (by omega) (wfChildren_mem _ e hwf (List.mem_cons_self e rest)))
          (ih abs (by omega) (wfChildren_tail _ _ hwf) (distinctNames_tail _ _ hdist))
          ?_
        intro p hp ev hev ⟨hpre, _⟩
        have hpe : (abs ++ [e.name]) <+: p := by
          have := (plan_paths (k + 1)).1 e abs (by omega) (DelEv.rmd p) hp
          exact this
        obtain ⟨x, hxm, hx⟩ := (plan_paths (k + 1)).2 rest abs (by omega) ev hev
        have hx' : (abs ++ [x.name]) <+: evPath ev := hx
        have hpe' : (abs ++ [e.name]) <+: evPath ev := hpe.trans hpre
        have heq : (abs ++ [e.name]) = (abs ++ [x.name]) := by
          have hlen : (abs ++ [e.name]).length = (abs ++ [x.name]).length := by
            simp
          rcases List.prefix_of_prefix_length_le hpe' hx' (by omega) with hpp
          exact List.IsPrefix.eq_of_length hpp hlen
        have : e.name = x.name := by
          have := List.append_cancel_left heq
          injection this
        exact distinctNames_head e rest hdist x hxm this.symm
    exact ⟨hnode, hlist⟩

/-! ## Fault injection: the first failure aborts the run -/

theorem prim_nil {α : Type} (x : Except Err α) : prim [] x = (x, []) := rfl

theorem prim_rep_zero {α : Type} (e : Err) (fs' : List (Option Err))
    (x : Except Err α) :
    prim (List.replicate 0 none ++ some e :: fs') x = (.error e, fs') := rfl

theorem prim_rep_succ {α : Type} (k : Nat) (e : Err) (fs' : List (Option Err))
    (x : Except Err α) :
    prim (List.replicate (k + 1) none ++ some e :: fs') x
      = (x, List.replicate k none ++ some e :: fs') := rfl

theorem run_keeps_nil : ∀ fuel : Nat,
    (∀ (s : Srv) (path : GoStr), (runRm fuel s [] path).2.2 = []) ∧
    (∀ (s : Srv) (cur : GoStr) (ents : List (GoStr × Bool)),
      (runEntries fuel s [] cur ents).2.2 = []) := by
  have E2of : ∀ fuel : Nat,
      (∀ (s : Srv) (path : GoStr), (runRm fuel s [] path).2.2 = []) →
      ∀ (ents : List (GoStr × Bool)) (s : Srv) (cur : GoStr),
        (runEntries fuel s [] cur ents).2.2 = [] := by
    intro fuel hE1 ents
    induction ents with
    | nil => intro s cur; rw [runEntries]
    | cons ent rest ih =>
      intro s cur
      rw [runEntries]
      split_ifs with h1 h2
      · exact ih s cur
      · rcases hr : runRm fuel s [] (cur ++ '/' :: ent.1) with ⟨A, R, L⟩
        have hL : L = [] := by
          have := hE1 s (cur ++ '/' :: ent.1)
          rw [hr] at this
          exact this
        subst hL
        cases R with
        | error e => rfl
        | ok s1 =>
          dsimp only
          exact ih s1 cur
      · rw [prim_nil]
        cases delServer s ent.1 with
        | error e => rfl
        | ok sd =>
          dsimp only
          exact ih sd.1 cur
  intro fuel
  induction fuel with
  | zero =>
    refine ⟨fun s path => by rw [runRm], ?_⟩
    intro s cur ents
    exact E2of 0 (fun s path => by rw [runRm]) ents s cur
  | succ f ihf =>
    have E1succ : ∀ (s : Srv) (path : GoStr), (runRm (f + 1) s [] path).2.2 = [] := by
      intro s path
      rw [runRm, prim_nil]
      cases chdir s path with
      | error e => rfl
      | ok s1 =>
        dsimp only
        rw [prim_nil]
        dsimp only
        rw [prim_nil]
        cases listDir s1 (pwdOf s1) with
        | error e => rfl
        | ok entries =>
          dsimp only
          rcases hr : runEntries f s1 [] (pwdOf s1) entries with ⟨A, R, L⟩
          have hL : L = [] := by
            have := E2of f ihf.1 entries s1 (pwdOf s1)
            rw [hr] at this
            exact this
          subst hL
          cases R with
          | error e => rfl
          | ok s2 =>
            dsimp only
            rw [prim_nil]
            dsimp only
            rw [prim_nil]
            cases rmdServer (cdup s2) (pwdOf s1) with
            | error e => rfl
            | ok sd => rfl
    exact ⟨E1succ, fun s cur ents => E2of (f + 1) E1succ ents s cur⟩

theorem runEntries_fault_of (fuel : Nat)
    (H1 : ∀ (s : Srv) (path : GoStr) (k : Nat) (e : Err) (fs' : List (Option Err)),
      (∃ k', runRm fuel s (List.replicate k none ++ some e :: fs') path
          = ((runRm fuel s [] path).1, (runRm fuel s [] path).2.1,
            List.replicate k' none ++ some e :: fs'))
      ∨ ((runRm fuel s (List.replicate k none ++ some e :: fs') path).1
            <+: (runRm fuel s [] path).1
          ∧ (runRm fuel s (List.replicate k none ++ some e :: fs') path).2.1
            = .error e)) :
    ∀ (ents : List (GoStr × Bool)) (s : Srv) (cur : GoStr) (k : Nat) (e : Err)
      (fs' : List (Option Err)),
      (∃ k', runEntries fuel s (List.replicate k none ++ some e :: fs') cur ents
          = ((runEntries fuel s [] cur ents).1,
            (runEntries fuel s [] cur ents).2.1,
            List.replicate k' none ++ some e :: fs'))
      ∨ ((runEntries fuel s (List.replicate k none ++ some e :: fs') cur ents).1
            <+: (runEntries fuel s [] cur ents).1
          ∧ (runEntries fuel s (List.replicate k none ++ some e :: fs') cur ents).2.1
            = .error e) := by
  intro ents
  induction ents with
  | nil =>
    intro s cur k e fs'
    left
    refine ⟨k, ?_⟩
    rw [runEntries, runEntries]
  | cons ent rest ih =>
    intro s cur k e fs'
    rw [runEntries, runEntries]
    split_ifs with h1 h2
    · exact ih s cur k e fs'
    · rcases H1 s (cur ++ '/' :: ent.1) k e fs' with ⟨k', hk⟩ | ⟨hpre, herr⟩
      · rw [hk]
        rcases hnoF : runRm fuel s [] (cur ++ '/' :: ent.1) with ⟨A, R, L⟩
        have hL : L = [] := by
          have := (run_keeps_nil fuel).1 s (cur ++ '/' :: ent.1)
          rw [hnoF] at this
          exact this
        subst hL
        cases R with
        | error e' =>
          dsimp only
          left
          exact ⟨k', rfl⟩
        | ok s1 =>
          dsimp only
          rcases ih s1 cur k' e fs' with ⟨k'', hk2⟩ | ⟨hpre2, herr2⟩
          · left
            refine ⟨k'', ?_⟩
            rw [hk2]
          · right
            exact ⟨(List.prefix_append_right_inj A).mpr hpre2, herr2⟩
      · right
        rcases hF : runRm fuel s (List.replicate k none ++ some e :: fs')
            (cur ++ '/' :: ent.1) with ⟨AF, RF, LF⟩
        rw [hF] at hpre herr
        dsimp only at hpre herr
        subst herr
        dsimp only
        refine ⟨?_, rfl⟩
        rcases hnoF : runRm fuel s [] (cur ++ '/' :: ent.1) with ⟨A, R, L⟩
        rw [hnoF] at hpre
        dsimp only at hpre
        cases R with
        | error e' =>
          dsimp only
          exact hpre
        | ok s1 =>
          dsimp only
          exact hpre.trans (List.prefix_append A _)
    · cases k with
      | zero =>
        rw [prim_rep_zero, prim_nil]
        right
        cases hdel : delServer s ent.1 with
        | error e' =>
          dsimp only
          exact ⟨List.nil_prefix, rfl⟩
        | ok sd =>
          dsimp only
          exact ⟨List.nil_prefix, rfl⟩
      | succ k1 =>
        rw [prim_rep_succ, prim_nil]
        cases hdel : delServer s ent.1 with
        | error e' =>
          dsimp only
          left
          exact ⟨k1, rfl⟩
        | ok sd =>
          dsimp only
          rcases ih sd.1 cur k1 e fs' with ⟨k'', hk2⟩ | ⟨hpre2, herr2⟩
          · left
            refine ⟨k'', ?_⟩
            rw [hk2]
          · right
            exact ⟨List.cons_prefix_cons.mpr ⟨rfl, hpre2⟩, herr2⟩

theorem runRm_fault : ∀ (fuel : Nat) (s : Srv) (path : GoStr) (k : Nat) (e : Err)
    (fs' : List (Option Err)),
    (∃ k', runRm fuel s (List.replicate k none ++ some e :: fs') path
        = ((runRm fuel s [] path).1, (runRm fuel s [] path).2.1,
          List.replicate k' none ++ some e :: fs'))
    ∨ ((runRm fuel s (List.replicate k none ++ some e :: fs') path).1
          <+: (runRm fuel s [] path).1
        ∧ (runRm fuel s (List.replicate k none ++ some e :: fs') path).2.1
          = .error e) := by
  intro fuel
  induction fuel with
  | zero =>
    intro s path k e fs'
    left
    refine ⟨k, ?_⟩
    rw [runRm, runRm]
  | succ f ihf =>
    intro s path k e fs'
    have H2 := runEntries_fault_of f ihf
    rw [runRm, runRm]
    cases k with
    | zero =>
      rw [prim_rep_zero, prim_nil]
      right
      cases hch : chdir s path with
      | error e' => exact ⟨List.nil_prefix, rfl⟩
      | ok s1 => exact ⟨List.nil_prefix, rfl⟩
    | succ k1 =>
      rw [prim_rep_succ, prim_nil]
      cases hch : chdir s path with
      | error e' =>
        dsimp only
        left
        exact ⟨k1, rfl⟩
      | ok s1 =>
        dsimp only
        cases k1 with
        | zero =>
          rw [prim_rep_zero, prim_nil]
          right
          exact ⟨List.nil_prefix, rfl⟩
        | succ k2 =>
          rw [prim_rep_succ, prim_nil]
          dsimp only
          cases k2 with
          | zero =>
            rw [prim_rep_zero, prim_nil]
            right
            cases hld : listDir s1 (pwdOf s1) with
            | error e' => exact ⟨List.nil_prefix, rfl⟩
            | ok entries => exact ⟨List.nil_prefix, rfl⟩
          | succ k3 =>
            rw [prim_rep_succ, prim_nil]
            cases hld : listDir s1 (pwdOf s1) with
            | error e' =>
              dsimp only
              left
              exact ⟨k3, rfl⟩
            | ok entries =>
              dsimp only
              rcases H2 entries s1 (pwdOf s1) k3 e fs' with ⟨k4, hk⟩ | ⟨hpre, herr⟩
              · rw [hk]
                rcases hnoF : runEntries f s1 [] (pwdOf s1) entries with ⟨A, R, L⟩
                have hL : L = [] := by
                  have := (run_keeps_nil f).2 s1 (pwdOf s1) entries
                  rw [hnoF] at this
                  exact this
                subst hL
                cases R with
                | error e' =>
                  dsimp only
                  left
                  exact ⟨k4, rfl⟩
                | ok s2 =>
                  dsimp only
                  cases k4 with
                  | zero =>
                    rw [prim_rep_zero, prim_nil]
                    right
                    dsimp only
                    refine ⟨?_, rfl⟩
                    rw [prim_nil]
                    cases hrm : rmdServer (cdup s2) (pwdOf s1) with
                    | error e' => exact List.prefix_rfl
                    | ok sd => exact List.prefix_append A _
                  | succ k5 =>
                    rw [prim_rep_succ, prim_nil]
                    dsimp only
                    cases k5 with
                    | zero =>
                      rw [prim_rep_zero, prim_nil]
                      right
                      dsimp only
                      refine ⟨?_, rfl⟩
                      cases hrm : rmdServer (cdup s2) (pwdOf s1) with
                      | error e' => exact List.prefix_rfl
                      | ok sd => exact List.prefix_append A _
                    | succ k6 =>
                      rw [prim_rep_succ, prim_nil]
                      cases hrm : rmdServer (cdup s2) (pwdOf s1) with
                      | error e' =>
                        dsimp only
                        left
                        exact ⟨k6, rfl⟩
                      | ok sd =>
                        dsimp only
                        left
                        exact ⟨k6, rfl⟩
              · right
                rcases hF : runEntries f s1 (List.replicate k3 none ++ some e :: fs')
                    (pwdOf s1) entries with ⟨AF, RF, LF⟩
                rw [hF] at hpre herr
                dsimp only at hpre herr
                subst herr
                dsimp only
                refine ⟨?_, rfl⟩
                rcases hnoF : runEntries f s1 [] (pwdOf s1) entries with ⟨A, R, L⟩
                rw [hnoF] at hpre
                dsimp only at hpre
                have hL : L = [] := by
                  have := (run_keeps_nil f).2 s1 (pwdOf s1) entries
                  rw [hnoF] at this
                  exact this
                subst hL
                cases R with
                | error e' =>
                  dsimp only
                  exact hpre
                | ok s2 =>
                  dsimp only
                  rw [prim_nil]
                  dsimp only
                  rw [prim_nil]
                  cases hrm : rmdServer (cdup s2) (pwdOf s1) with
                  | error e' =>
                    dsimp only
                    exact hpre
                  | ok sd =>
                    dsimp only
                    exact hpre.trans (List.prefix_append A _)

/-! ## After the run the removed directory is gone -/

theorem childNamed_none_of_all (n : GoStr) (ns : List FsNode)
    (h : ∀ f ∈ ns, f.name ≠ n) : childNamed ns n = none := by
  rw [childNamed, List.find?_eq_none]
  intro x hx hpx
  have hpx2 : (x.name == n) = true := hpx
  exact h x hx (eq_of_beq hpx2)

theorem childNamed_removeChild (n : GoStr) : ∀ ns : List FsNode,
    distinctNames ns = true → childNamed (removeChild n ns) n = none := by
  intro ns
  induction ns with
  | nil => intro _; rfl
  | cons e rest ih =>
    intro h
    by_cases he : (e.name == n) = true
    · rw [removeChild, if_pos he]
      apply childNamed_none_of_all
      intro f hf
      rw [← eq_of_beq he]
      exact distinctNames_head e rest h f hf
    · rw [removeChild, if_neg he, childNamed_cons, if_neg he]
      exact ih (distinctNames_tail e rest h)

theorem names_upd1 (n : GoStr) (k : FsNode → FsNode)
    (hk : ∀ e, (k e).name = e.name) :
    ∀ ns : List FsNode,
      (upd1 n k ns).map FsNode.name = ns.map FsNode.name := by
  intro ns
  induction ns with
  | nil => rfl
  | cons e rest ih =>
    by_cases he : (e.name == n) = true
    · rw [upd1_cons, if_pos he, List.map_cons, List.map_cons, hk e]
    · rw [upd1_cons, if_neg he, List.map_cons, List.map_cons, ih]

theorem anyName_congr (m : GoStr) : ∀ (ns ms : List FsNode),
    ns.map FsNode.name = ms.map FsNode.name →
    (ns.any fun f => f.name == m) = (ms.any fun f => f.name == m) := by
  intro ns
  induction ns with
  | nil =>
    intro ms h
    cases ms with
    | nil => rfl
    | cons g mr => exact absurd h (by simp)
  | cons e rest ih =>
    intro ms h
    cases ms with
    | nil => exact absurd h (by simp)
    | cons g mr =>
      simp only [List.map_cons, List.cons.injEq] at h
      rw [List.any_cons, List.any_cons, h.1, ih mr h.2]

theorem distinctNames_congr : ∀ (ns ms : List FsNode),
    ns.map FsNode.name = ms.map FsNode.name →
    distinctNames ns = distinctNames ms := by
  intro ns
  induction ns with
  | nil =>
    intro ms h
    cases ms with
    | nil => rfl
    | cons g mr => exact absurd h (by simp)
  | cons e rest ih =>
    intro ms h
    cases ms with
    | nil => exact absurd h (by simp)
    | cons g mr =>
      simp only [List.map_cons, List.cons.injEq] at h
      rw [distinctNames, distinctNames, ih mr h.2, h.1,
        anyName_congr g.name rest mr h.2]

theorem dirAt_final_none (q : List GoStr) (n : GoStr) (root : List FsNode)
    (hw : wfChildren root = true) (hd : distinctNames root = true) :
    dirAt (removeAt (q ++ [n]) (setChildren [] (q ++ [n]) root)) (q ++ [n])
      = none := by
  rw [removeAt_concat, setChildren, updAt_append, updAt_comp, dirAt_concat,
    dirAt_updAt]
  cases hP : dirAt root q with
  | none => simp
  | some P =>
    rw [Option.map_some', Option.some_bind]
    obtain ⟨hwP, hdP, _⟩ := dirAt_wf q root P hw hd hP
    have hnames : (updAt (fun _ => ([] : List FsNode)) [n] P).map FsNode.name
        = P.map FsNode.name := by
      rw [updAt]
      exact names_upd1 n _ (by intro e; cases e <;> rfl) P
    have hdP2 : distinctNames (updAt (fun _ => ([] : List FsNode)) [n] P)
        = true := by
      rw [distinctNames_congr _ P hnames]
      exact hdP
    rw [childNamed_removeChild n _ hdP2]

theorem rmd_not_in_plan (t : List GoStr) (sub : List FsNode) :
    DelEv.rmd t ∉ planList t sub := by
  intro hmem
  obtain ⟨x, _, hx⟩ := (plan_paths (sizeList sub)).2 sub t (le_refl _)
    (DelEv.rmd t) hmem
  have h1 := List.IsPrefix.length_le hx
  simp only [evPath, List.length_append, List.length_singleton] at h1
  omega

theorem runRm_nonexistent (f : Nat) (s : Srv) (path : GoStr)
    (h : dirAt s.root (resolve s path) = none) :
    runRm (f + 1) s [] path = ([], .error (.protocol 550 []), []) := by
  have hc : chdir s path = .error (.protocol 550 []) := by
    rw [chdir, h]
  rw [runRm, prim_nil, hc]

/-- C4: on a well-formed tree, `RemoveDirRecur` runs the depth-first
algorithm: it emits exactly the depth-first deletion schedule of the
resolved directory (each entry other than `.` and `..` is recursed into if
a directory and deleted by name otherwise), removes the directory itself
last at the absolute path read back from PWD (which is never deleted
earlier), deletes every child before its parent, touches exactly the nodes
of the subtree, and leaves a tree in which the directory no longer
resolves; on a path that does not resolve to a directory it fails with the
navigation error and deletes nothing; and a failure injected at any server
command makes the run abort at that point: the events are a first segment
of the fault-free ones and the injected error is propagated (or, when the
faulty command is never reached, the run is unchanged). -/
theorem c4_remove_dir_recur :
    (∀ (root : List FsNode) (cwd : List GoStr) (path : GoStr) (fuel : Nat)
        (t : List GoStr) (sub : List FsNode),
      resolve ⟨root, cwd⟩ path = t → t ≠ [] → dirAt root t = some sub →
      wfTree root = true → sizeList sub < fuel →
      runRm fuel ⟨root, cwd⟩ [] path
          = (planList t sub ++ [DelEv.rmd t],
            .ok ⟨removeAt t (setChildren [] t root), t.dropLast⟩, [])
        ∧ (planList t sub ++ [DelEv.rmd t]).getLast? = some (DelEv.rmd t)
        ∧ DelEv.rmd t ∉ planList t sub
        ∧ noUnderAfter (planList t sub ++ [DelEv.rmd t])
        ∧ (∀ q : List GoStr,
            (∃ ev ∈ planList t sub ++ [DelEv.rmd t], evPath ev = q)
              ↔ (q ∈ pathsList t sub ∨ q = t))
        ∧ dirAt (removeAt t (setChildren [] t root)) t = none)
    ∧ (∀ (s : Srv) (path : GoStr) (f : Nat),
      dirAt s.root (resolve s path) = none →
      runRm (f + 1) s [] path = ([], .error (.protocol 550 []), []))
    ∧ (∀ (fuel : Nat) (s : Srv) (path : GoStr) (k : Nat) (e : Err)
        (fs' : List (Option Err)),
      (∃ k', runRm fuel s (List.replicate k none ++ some e :: fs') path
          = ((runRm fuel s [] path).1, (runRm fuel s [] path).2.1,
            List.replicate k' none ++ some e :: fs'))
      ∨ ((runRm fuel s (List.replicate k none ++ some e :: fs') path).1
            <+: (runRm fuel s [] path).1
          ∧ (runRm fuel s (List.replicate k none ++ some e :: fs') path).2.1
            = .error e)) := by
  refine ⟨?_, fun s path f h => runRm_nonexistent f s path h, runRm_fault⟩
  intro root cwd path fuel t sub hres hne hdir hwt hsize
  rw [wfTree, Bool.and_eq_true] at hwt
  obtain ⟨hwr, hdr⟩ := hwt
  obtain ⟨hws, hds, hcomps⟩ := dirAt_wf t root sub hwr hdr hdir
  obtain ⟨fs2, hrun, _⟩ := (runRm_plan fuel).1 root cwd path [] t sub hres hne
    hdir hws hds hcomps hsize (by intro x hx; exact absurd hx (List.not_mem_nil x))
  have hnil : fs2 = [] := by
    have := (run_keeps_nil fuel).1 ⟨root, cwd⟩ path
    rw [hrun] at this
    exact this
  subst hnil
  refine ⟨hrun, List.getLast?_concat _, rmd_not_in_plan t sub, ?_, ?_, ?_⟩
  · refine noUnderAfter_append _ _
      ((plan_noUnder (sizeList sub)).2 sub t (le_refl _) hws hds)
      ⟨(fun p hp ev hev => absurd hev (List.not_mem_nil ev)), trivial⟩ ?_
    intro p hp ev hev hcontra
    rcases List.mem_singleton.mp hev with rfl
    obtain ⟨x, _, hx⟩ := (plan_paths (sizeList sub)).2 sub t (le_refl _)
      (DelEv.rmd p) hp
    have h1 := List.IsPrefix.length_le hx
    have h2 := List.IsPrefix.length_le hcontra.1
    simp only [evPath, List.length_append, List.length_singleton] at h1 h2
    omega
  · intro q
    constructor
    · rintro ⟨ev, hev, rfl⟩
      rcases List.mem_append.mp hev with hev | hev
      · left
        have hpe := (plan_paths_eq (sizeList sub)).2 sub t (le_refl _)
        rw [← hpe]
        exact List.mem_map_of_mem evPath hev
      · rcases List.mem_singleton.mp hev with rfl
        exact Or.inr rfl
    · rintro (hq | hq)
      · have hpe := (plan_paths_eq (sizeList sub)).2 sub t (le_refl _)
        rw [← hpe] at hq
        obtain ⟨ev, hev, hevq⟩ := List.mem_map.mp hq
        exact ⟨ev, List.mem_append_left _ hev, hevq⟩
      · exact ⟨DelEv.rmd t, List.mem_append_right _ (List.mem_singleton_self _),
          by rw [hq, evPath]⟩
  · rcases List.eq_nil_or_concat t with hc | ⟨q0, n0, hc⟩
    · exact absurd hc hne
    · rw [List.concat_eq_append] at hc
      subst hc
      exact dirAt_final_none q0 n0 root hwr hdr

/-- Witness for C4: a directory `d` holding a file `a` and a subdirectory
`s` with a file `b` is deleted depth first, and afterwards `d` no longer
resolves. -/
theorem c4_remove_dir_recur_witness :
    runRm 4 ⟨[FsNode.dir ['d'] [FsNode.file ['a'],
          FsNode.dir ['s'] [FsNode.file ['b']]]], []⟩ [] ['d']
        = (planList [['d']] [FsNode.file ['a'],
            FsNode.dir ['s'] [FsNode.file ['b']]] ++ [DelEv.rmd [['d']]],
          .ok ⟨removeAt [['d']] (setChildren [] [['d']]
              [FsNode.dir ['d'] [FsNode.file ['a'],
                FsNode.dir ['s'] [FsNode.file ['b']]]]),
            List.dropLast [['d']]⟩, [])
      ∧ dirAt (removeAt [['d']] (setChildren [] [['d']]
            [FsNode.dir ['d'] [FsNode.file ['a'],
              FsNode.dir ['s'] [FsNode.file ['b']]]])) [['d']] = none := by
  have h := c4_remove_dir_recur.1
    [FsNode.dir ['d'] [FsNode.file ['a'], FsNode.dir ['s'] [FsNode.file ['b']]]]
    [] ['d'] 4 [['d']]
    [FsNode.file ['a'], FsNode.dir ['s'] [FsNode.file ['b']]]
    rfl (by simp) rfl
    (by simp [wfTree, wfChildren, wfNode, distinctNames, wfName, FsNode.name])
    (by simp [sizeList, sizeNode])
  exact ⟨h.1, h.2.2.2.2.2⟩

end FtpSpec
